import Mathlib

/-!
Verification of the MAEUM_CODE agentic execution engine against its
specification.  The definitions below are shallow embeddings of the Python
sources:

* `StrUtil` — character-list models of the Python string primitives the
  code relies on (`in`, `str.count`, `str.replace(_, _, 1)`,
  `str.split`, `str.rstrip`).
* `CodeTools` — `Code_Agent/code_tools.py`: `SafeFileOps`, `CodeEditor`
  staging, `TransactionManager.commit/undo/redo` over an in-memory text
  file system.
* `IdeServer` — `Code_Agent/ide_server.py`: the file tools of
  `ToolExecutor.execute`, the per-session symbol index, the agentic-loop
  tool dispatch of `_run_agentic_loop`, and its mid-stream tool-block
  interception together with `_parse_tool_block` / `_detect_tool_calls`.

File contents are modelled as Lean strings (text files only: the
binary-probe branches of the Python code are not exercised by any claim).
Directories, timestamps, the on-disk backup mirror and subprocess
execution are outside the modelled state; the definitions that would
touch them say so in their doc comments.
-/

namespace StrUtil

/-- Index of the first occurrence of `n` as a contiguous run inside `l`
(the search that backs Python `in`, `str.split(sep)` and `re`-literal
scanning).  `findSubL [] l = some 0`, matching Python `"".find`. -/
def findSubL (n : List Char) : List Char → Option Nat
  | [] => if n = [] then some 0 else none
  | c :: t => if n.isPrefixOf (c :: t) then some 0 else (findSubL n t).map (· + 1)

/-- Python `n in l` for strings. -/
def containsSubL (l n : List Char) : Bool :=
  (findSubL n l).isSome

/-- Left-to-right non-overlapping occurrence scan backing `countSubL`:
`cd` is the number of characters still covered by the previous match and
therefore skipped. -/
def countSubAux (n : List Char) : List Char → Nat → Nat
  | [], _ => 0
  | c :: t, cd =>
    if cd ≠ 0 then countSubAux n t (cd - 1)
    else if n.isPrefixOf (c :: t) then 1 + countSubAux n t (n.length - 1)
    else countSubAux n t 0

/-- Python `l.count(n)`: non-overlapping occurrences, scanned left to
right.  For `n = []` this is `l.length + 1`, exactly as in Python. -/
def countSubL (n l : List Char) : Nat :=
  countSubAux n l 0 + (if n = [] then 1 else 0)

/-- Python `l.replace(n, r, 1)`: replace the leftmost occurrence only. -/
def replaceFirstL (n r : List Char) : List Char → List Char
  | [] => if n = [] then r else []
  | c :: t =>
    if n.isPrefixOf (c :: t) then r ++ (c :: t).drop n.length
    else c :: replaceFirstL n r t

/-- Python `l.split("\n")`. -/
def splitNlL : List Char → List (List Char)
  | [] => [[]]
  | c :: t =>
    if c = '\n' then [] :: splitNlL t
    else
      match splitNlL t with
      | [] => [[c]]
      | h :: r => (c :: h) :: r

/-- Python `l.rstrip("\r")`. -/
def rstripCR (l : List Char) : List Char :=
  (l.reverse.dropWhile (· = '\r')).reverse

/-- Truthiness of Python `l.strip()`: does `l` hold any non-whitespace
character? -/
def hasNonWs (l : List Char) : Bool :=
  l.any (fun c => !c.isWhitespace)

/-- Python `l.strip()` (both ends, ASCII whitespace). -/
def stripWs (l : List Char) : List Char :=
  ((l.dropWhile Char.isWhitespace).reverse.dropWhile Char.isWhitespace).reverse

/-- String-level wrapper for `containsSubL` (Python `needle in hay`). -/
def strContains (hay needle : String) : Bool :=
  containsSubL hay.data needle.data

/-- String-level wrapper for `countSubL` (Python `hay.count(needle)`). -/
def strCount (hay needle : String) : Nat :=
  countSubL needle.data hay.data

/-- String-level wrapper for `replaceFirstL`
(Python `hay.replace(needle, repl, 1)`). -/
def strReplaceFirst (hay needle repl : String) : String :=
  ⟨replaceFirstL needle.data repl.data hay.data⟩

/-- String-level wrapper for `splitNlL` (Python `s.split("\n")`). -/
def strSplitNl (s : String) : List String :=
  (splitNlL s.data).map (⟨·⟩)

end StrUtil

namespace CodeTools

open StrUtil

/-- The workspace file system: maps an (already resolved) path to the
text content of the file stored there, `none` when no file exists.
Directories are not modelled — no claim depends on them. -/
def Fs : Type := String → Option String

/-- Pointwise update of the file system at one path. -/
def Fs.update (fs : Fs) (p : String) (v : Option String) : Fs :=
  fun q => if q = p then v else fs q

/-- The empty workspace. -/
def Fs.empty : Fs := fun _ => none

/-- `code_tools.OperationType` (the `MOVE`/`COPY` members are never
produced by the staging functions and are omitted). -/
inductive OperationType
  | create
  | modify
  | delete
  | rename
deriving DecidableEq, Repr

/-- `code_tools.FileChange`.  The bookkeeping fields `diff`, `status`,
`error` and `timestamp` are omitted: commit/undo/redo read only the
fields kept here. -/
structure FileChange where
  operation : OperationType
  filePath : String
  newContent : Option String := none
  oldContent : Option String := none
  newPath : Option String := none
deriving DecidableEq, Repr

/-- `code_tools.Transaction`, reduced to the fields the claims mention
(`id`, `description`, `timestamp`, `metadata` omitted). -/
structure Transaction where
  changes : List FileChange
  applied : Bool
deriving DecidableEq, Repr

/-- `SafeFileOps.write_file` on the model: always succeeds for text
content (atomic tmp-file/rename and the backup copy live outside the
modelled state).  Mirrors that `write_text(None)` raises, which
`write_file` converts to `(False, _, error)`: callers pass
`change.new_content`, so the `none` case is handled at `applyChange`. -/
def writeFileOp (fs : Fs) (p : String) (c : String) : Bool × Fs :=
  (true, fs.update p (some c))

/-- `SafeFileOps.delete_file`: fails when the path does not exist. -/
def deleteFileOp (fs : Fs) (p : String) : Bool × Fs :=
  match fs p with
  | none => (false, fs)
  | some _ => (true, fs.update p none)

/-- `SafeFileOps.rename_file` (with `overwrite=False`, as
`_apply_change`/`_revert_change` call it): fails when the source is
missing or the destination already exists. -/
def renameFileOp (fs : Fs) (a b : String) : Bool × Fs :=
  match fs a with
  | none => (false, fs)
  | some c =>
    match fs b with
    | some _ => (false, fs)
    | none => (true, (fs.update a none).update b (some c))

/-- `TransactionManager._apply_change`. -/
def applyChange (fs : Fs) (c : FileChange) : Bool × Fs :=
  match c.operation with
  | .create | .modify =>
    match c.newContent with
    | none => (false, fs)
    | some n => writeFileOp fs c.filePath n
  | .delete => deleteFileOp fs c.filePath
  | .rename =>
    match c.newPath with
    | none => (false, fs)
    | some b => renameFileOp fs c.filePath b

/-- `TransactionManager._revert_change`. -/
def revertChange (fs : Fs) (c : FileChange) : Bool × Fs :=
  match c.operation with
  | .create => deleteFileOp fs c.filePath
  | .modify | .delete =>
    match c.oldContent with
    | none => (false, fs)
    | some o => writeFileOp fs c.filePath o
  | .rename =>
    match c.newPath with
    | none => (false, fs)
    | some b => renameFileOp fs b c.filePath

/-- The commit loop of `TransactionManager.commit` (`dry_run=False`):
every change is applied in order — a failure does not stop the loop —
and the boolean records whether the `errors` list stayed empty. -/
def commitRun (fs : Fs) : List FileChange → Bool × Fs
  | [] => (true, fs)
  | c :: cs =>
    let r := applyChange fs c
    let rest := commitRun r.2 cs
    (r.1 && rest.1, rest.2)

/-- `TransactionManager.commit` together with the undo-stack push: on
success the transaction is pushed (stack top at the head, as
`UndoManager.push`/`undo` use the end of the Python list), on failure
the transaction is marked failed and the stack is left alone. -/
def commitModel (fs : Fs) (stack : List Transaction) (cs : List FileChange) :
    Transaction × List Transaction × Fs :=
  let r := commitRun fs cs
  if r.1 then (⟨cs, true⟩, ⟨cs, true⟩ :: stack, r.2)
  else (⟨cs, false⟩, stack, r.2)

/-- `TransactionManager.undo` applied to one transaction: revert every
change in reverse order, ignoring per-change failures (the Python loop
discards `_revert_change`'s result). -/
def undoRun (fs : Fs) (cs : List FileChange) : Fs :=
  cs.foldr (fun c acc => (revertChange acc c).2) fs

/-- `TransactionManager.redo` applied to one transaction: re-apply every
change in order, ignoring per-change failures. -/
def redoRun (fs : Fs) (cs : List FileChange) : Fs :=
  cs.foldl (fun acc c => (applyChange acc c).2) fs

/-- One staged operation as issued against a `TransactionManager`
between `begin` and `commit` (`edit` with its default
`replace_all=False`). -/
inductive EditorOp
  | write (p c : String)
  | edit (p old new : String)
  | del (p : String)
  | ren (a b : String)
deriving DecidableEq, Repr

/-- Whether the staged operation is a rename. -/
def EditorOp.isRen : EditorOp → Bool
  | .ren _ _ => true
  | _ => false

/-- The path a non-rename staged operation touches (for `ren`, the
source path). -/
def EditorOp.path : EditorOp → String
  | .write p _ => p
  | .edit p _ _ => p
  | .del p => p
  | .ren a _ => a

/-- Staging, reading the disk as it is at staging time (between `begin`
and `commit` nothing has been applied, so that is the pre-transaction
state):

* `CodeEditor.edit` — read the file; a read failure or an occurrence
  count `≠ 1` produces a failed change carrying no `new_content`;
* `CodeEditor.write` — `CREATE` when the path is absent, else `MODIFY`
  with the pre-state as `old_content`;
* `CodeEditor.delete` — `old_content` is whatever the read returns;
* `CodeEditor.rename` — records only the two paths. -/
def stageChange (s0 : Fs) : EditorOp → FileChange
  | .edit p old new =>
    match s0 p with
    | none => { operation := .modify, filePath := p }
    | some content =>
      let cnt := strCount content old
      if cnt = 0 then
        { operation := .modify, filePath := p, oldContent := some content }
      else if 1 < cnt then
        { operation := .modify, filePath := p, oldContent := some content }
      else
        { operation := .modify, filePath := p, oldContent := some content,
          newContent := some (strReplaceFirst content old new) }
  | .write p c =>
    match s0 p with
    | some old =>
      { operation := .modify, filePath := p, oldContent := some old, newContent := some c }
    | none => { operation := .create, filePath := p, newContent := some c }
  | .del p => { operation := .delete, filePath := p, oldContent := s0 p }
  | .ren a b => { operation := .rename, filePath := a, newPath := some b }

/-- Stage a whole transaction from the pre-commit state `s0`. -/
def stageTx (s0 : Fs) (ops : List EditorOp) : List FileChange :=
  ops.map (stageChange s0)

/-- A change whose `_revert_change` unconditionally sets its own path to
`v`: deleting a created file leaves the path absent whatever the current
state, and restoring a recorded `old_content` writes it outright. -/
def setterTo (c : FileChange) (v : Option String) : Prop :=
  (c.operation = .create ∧ v = none) ∨
    ((c.operation = .modify ∨ c.operation = .delete) ∧
      ∃ o, c.oldContent = some o ∧ v = some o)

/-- Pre-state of the claim-C4 counterexample transaction: one file `C`
holding `"a"`. -/
def c4s0 : Fs := fun q => if q = "C" then some "a" else none

/-- The claim-C4 counterexample transaction: create `A`, rename `A` to
`B`, rename `C` onto the now-free `A`, overwrite `C`. -/
def c4ops : List EditorOp :=
  [.write "A" "c", .ren "A" "B", .ren "C" "A", .write "C" "c"]

end CodeTools

namespace IdeServer

open StrUtil

/-- `os.path.join(workspace, file_path)` as `ToolExecutor.execute` uses
it (ide_server.py:770, 857, 881): an absolute second argument replaces
the first entirely; otherwise the two are joined with a separator (the
workspace root is a non-empty absolute path without a trailing slash).
`SafeFileOps._resolve_path` (code_tools.py:320-324) has the same
semantics: `Path(file_path)` verbatim when the path starts with `/`,
else `self.root_path / file_path`. -/
def osPathJoin (a b : String) : String :=
  if b.data.head? = some '/' then b else a ++ "/" ++ b

/-- State carried by `ToolExecutor` across tool executions: the
workspace files, the undo stack of the process-wide
`TransactionManager` it holds a reference to, and the session symbol
index dict shared with the IDE server (`self.symbol_index`). -/
structure ExecState where
  fs : CodeTools.Fs
  undoStack : List CodeTools.Transaction
  symIndex : String → Option String

/-- Result shape of the `read_file` tool (ide_server.py:831-849).
`lines` holds the numbered lines as `(line number, rstripped content)`
pairs — the rendered form is `renderLine`. -/
structure ReadResult where
  success : Bool
  lines : List (Nat × String) := []
  totalLines : Nat := 0
  totalChars : Nat := 0
  hasMore : Bool := false
  nextOffset : Option Nat := none
  error : Option String := none
deriving DecidableEq, Repr

/-- One numbered line as `read_file` renders it: `f"{line_num}: {line_content}"`. -/
def renderLine (n : Nat) (content : String) : String :=
  Nat.repr n ++ ": " ++ content

/-- The character-capped collection loop of `read_file`
(ide_server.py:804-821): starting at 0-based index `i` with `cc`
characters already counted and `ne` recording whether any line was
emitted yet, emit lines until the rendered length (including the
trailing newline) would push past `maxChars`.  Returns the emitted
`(line number, content)` pairs and the final `end_idx`. -/
def capGo (maxChars : Nat) : List String → Nat → Nat → Bool → List (Nat × String) × Nat
  | [], i, _, _ => ([], i)
  | l :: rest, i, cc, ne =>
    let content : String := ⟨rstripCR l.data⟩
    let rendered := renderLine (i + 1) content ++ "\n"
    if maxChars < cc + rendered.length ∧ ne = true then ([], i)
    else
      let r := capGo maxChars rest (i + 1) (cc + rendered.length) true
      ((i + 1, content) :: r.1, r.2)

/-- The `read_file` handler's pure core (ide_server.py:778-849) on the
file's content: split on `"\n"`, then either the explicit
`start_line`/`end_line` range (the 30000-character cap is ignored) or
the capped loop.  `start_idx = max(0, start_line - 1)` is the truncated
subtraction.  `next_offset`/`CONTINUE` appear only when `has_more`. -/
def readFileCore (content : String) (startLine : Nat) (endLine? : Option Nat) : ReadResult :=
  let allLines := strSplitNl content
  let totalLines := allLines.length
  let startIdx := startLine - 1
  let r :=
    match endLine? with
    | some endLine =>
      let endIdx := min endLine totalLines
      let nums := List.range' (startIdx + 1) (endIdx - startIdx)
      ((nums.map fun n => (n, (⟨rstripCR ((allLines.get? (n - 1)).getD "").data⟩ : String))), endIdx)
    | none => capGo 30000 (allLines.drop startIdx) startIdx 0 false
  let hasMore := decide (r.2 < totalLines)
  { success := true
    lines := r.1
    totalLines := totalLines
    totalChars := content.length
    hasMore := hasMore
    nextOffset := if hasMore then some (r.2 + 1) else none }

/-- `read_file` as dispatched by `ToolExecutor.execute`
(ide_server.py:764-852): resolve the path, fail when no file is there,
read it, and — only when the raw `file_path` is not yet a key of the
session symbol index — extract the file's symbols from the content just
read and cache them under that key (ide_server.py:825-829).  The
extraction itself (`_extract_file_symbols`) is kept abstract as the
`extract` argument; no claim depends on its internals. -/
def toolReadFile (extract : String → String) (st : ExecState) (ws p : String)
    (startLine : Nat) (endLine? : Option Nat) : ReadResult × ExecState :=
  let full := osPathJoin ws p
  match st.fs full with
  | none => ({ success := false, error := some "File not found" }, st)
  | some content =>
    let st' :=
      if st.symIndex p = none then
        { st with symIndex := fun q => if q = p then some (extract content) else st.symIndex q }
      else st
    (readFileCore content startLine endLine?, st')

/-- Result shape of the `write_file` tool (ide_server.py:867-872). -/
structure WriteResult where
  success : Bool
  action : String
  path : String
deriving DecidableEq, Repr

/-- `write_file` as dispatched by `ToolExecutor.execute`
(ide_server.py:854-872): resolve, create parent directories (outside the
model), write the content with a plain `open(..., "w")`, and report
`created`/`overwritten`.  No transaction is begun, no change is staged
and the undo stack is not touched. -/
def toolWriteFile (st : ExecState) (ws p c : String) : WriteResult × ExecState :=
  let full := osPathJoin ws p
  let existsBefore := (st.fs full).isSome
  ({ success := true, action := if existsBefore then "overwritten" else "created", path := p },
   { st with fs := st.fs.update full (some c) })

/-- Result shape of the `edit_file` tool (ide_server.py:914-942). -/
structure EditResult where
  success : Bool
  editType : Option String := none
  error : Option String := none
deriving DecidableEq, Repr

/-- `edit_file` as dispatched by `ToolExecutor.execute`
(ide_server.py:874-942).  With both `start_line` and `end_line` given
the line-range mode replaces the 1-based inclusive range by
`new_content.split("\n")` (empty input contributing no lines); otherwise
the text mode requires a non-empty `old_text`, fails with "Text not
found in file" when it does not occur, and else replaces its **first**
occurrence (`content.replace(old_text, new_text, 1)`).  As with
`write_file`, the file is written directly: no transaction, no undo
stack push. -/
def toolEditFile (st : ExecState) (ws p old new : String)
    (startLine? endLine? : Option Nat) (newContentInput : String) : EditResult × ExecState :=
  let full := osPathJoin ws p
  match st.fs full with
  | none => ({ success := false, error := some "File not found" }, st)
  | some content =>
    match startLine?, endLine? with
    | some startLine, some endLine =>
      let allLines := strSplitNl content
      let total := allLines.length
      if startLine < 1 || total < endLine || endLine < startLine then
        ({ success := false, error := some "Invalid line range" }, st)
      else
        let newLines := if newContentInput = "" then [] else strSplitNl newContentInput
        let resultLines := allLines.take (startLine - 1) ++ newLines ++ allLines.drop endLine
        ({ success := true, editType := some "line_range" },
         { st with fs := st.fs.update full (some (String.intercalate "\n" resultLines)) })
    | _, _ =>
      if old = "" then
        ({ success := false,
           error := some "Provide old_text/new_text OR start_line/end_line/new_content" }, st)
      else if strContains content old then
        ({ success := true, editType := some "text_replace" },
         { st with fs := st.fs.update full (some (strReplaceFirst content old new)) })
      else
        ({ success := false, error := some "Text not found in file" }, st)

/-- The executor-level operations whose interleaving claim C10 ranges
over (each carries the raw `file_path` argument of the tool call). -/
inductive ExecOp
  | readF (p : String) (startLine : Nat) (endLine? : Option Nat)
  | writeF (p c : String)
  | editTextF (p old new : String)
deriving DecidableEq, Repr

/-- Run one executor operation for its state effect. -/
def execStep (extract : String → String) (ws : String) (st : ExecState) : ExecOp → ExecState
  | .readF p s e => (toolReadFile extract st ws p s e).2
  | .writeF p c => (toolWriteFile st ws p c).2
  | .editTextF p old new => (toolEditFile st ws p old new none none "").2

/-- Run a sequence of executor operations. -/
def execRun (extract : String → String) (ws : String) (st : ExecState) :
    List ExecOp → ExecState
  | [] => st
  | op :: rest => execRun extract ws (execStep extract ws st op) rest

/-- One tool call as the agentic loop sees it after parsing:
the `input` JSON is opaque to the dispatch logic, `filePath` models
`tool_input.get("path") or tool_input.get("file_path")`. -/
structure ToolCall where
  name : String
  input : String
  filePath : Option String := none
deriving DecidableEq, Repr

/-- WebSocket events emitted by `_run_agentic_loop` and the
`tool_confirm` handler of `websocket_chat` (payloads reduced to the
fields the claims mention). -/
inductive Ev
  | token (s : String)
  | toolDetected (name : String)
  | toolExecuting (name : String) (explorationCount : Option Nat)
  | openInEditor (path : String)
  | toolResult (name : String) (success : Bool)
  | fileModified (path : Option String)
  | confirmRequest (cid : Nat) (name : String)
  | waitingConfirmation (cid : Nat)
  | doneEv (s : String)
  | errorEv (s : String)
deriving DecidableEq, Repr

/-- The tools `_run_agentic_loop` demands confirmation for
(ide_server.py:2997). -/
def needsConfirmNames : List String := ["write_file", "edit_file", "bash"]

/-- `exploration_tools` (ide_server.py:2826). -/
def explorationToolNames : List String := ["list_dir", "read_file", "search_code"]

/-- `max_exploration` (ide_server.py:2825). -/
def maxExploration : Nat := 20

/-- Tools that trigger an `open_in_editor` event when a path argument is
present (ide_server.py:3066). -/
def openInEditorNames : List String := ["read_file", "edit_file", "write_file", "search_code"]

/-- The error text of the `NameError` raised at ide_server.py:3009 (the
local name `stream` is never bound in `_run_agentic_loop`), as caught
and forwarded by the handler at ide_server.py:3116-3121. -/
def nameErrorStream : String := "NameError: name stream is not defined"

/-- The `token` content sent when the exploration budget is exhausted
(ide_server.py:3037-3040; content abridged — no claim reads it). -/
def explorationStopToken : String := "[exploration limit reached - summarizing]"

/-- The system note appended to `user_message` instead of executing an
over-budget exploration tool (ide_server.py:3042-3049; abridged). -/
def explorationSystemNote : String := "[system note: exploration budget exhausted, answer now]"

/-- The tool-result observation appended to `user_message` after an
inline execution (ide_server.py:3102-3114; abridged to the tool name). -/
def contextUpdateNote (toolName : String) : String :=
  "[tool result: " ++ toolName ++ "]"

/-- Per-turn dispatch state of `_run_agentic_loop` plus the session's
pending-confirmation dict (`confirmation_id`s modelled by a counter
where the source draws fresh `uuid4` values). -/
structure LoopSt where
  explorationCount : Nat := 0
  userMessage : String := ""
  pending : List (Nat × ToolCall) := []
  nextCid : Nat := 0
deriving DecidableEq, Repr

/-- Dispatch of one detected tool call (ide_server.py:2992-3114), with
the tool executor abstracted as `exec` (only the success flag of its
result feeds back into the event stream).  Returns the emitted events,
the new state, and whether the loop invocation returned (ending the
turn).

The destructive branch mirrors the source faithfully **including its
bug**: line 3001 registers the pending confirmation, then line 3009
evaluates the unbound local `stream` while building
`_pending_loop_context`, raising `NameError` before the
`tool_confirm_request` of line 3014 can be sent; the handler at line
3116 emits an `error` event and returns.  The exploration branch
increments the counter first and only then compares it against the cap,
so the counter itself can exceed `maxExploration`. -/
def dispatchStep (exec : ToolCall → Bool) (st : LoopSt) (tc : ToolCall) :
    List Ev × LoopSt × Bool :=
  if tc.name ∈ needsConfirmNames then
    ([Ev.errorEv nameErrorStream],
     { st with pending := st.pending ++ [(st.nextCid, tc)], nextCid := st.nextCid + 1 },
     true)
  else
    let isExpl := tc.name ∈ explorationToolNames
    let cnt := if isExpl then st.explorationCount + 1 else st.explorationCount
    if isExpl ∧ maxExploration < cnt then
      ([Ev.token explorationStopToken],
       { st with explorationCount := cnt, userMessage := st.userMessage ++ explorationSystemNote },
       false)
    else
      let ok := exec tc
      let evs :=
        [Ev.toolExecuting tc.name (if isExpl then some cnt else none)]
          ++ (match tc.filePath with
              | some fp => if tc.name ∈ openInEditorNames then [Ev.openInEditor fp] else []
              | none => [])
          ++ [Ev.toolResult tc.name ok]
          ++ (if tc.name ∈ (["edit_file", "write_file"] : List String) ∧ ok then
                [Ev.fileModified tc.filePath]
              else [])
      (evs,
       { st with explorationCount := cnt,
                 userMessage := st.userMessage ++ contextUpdateNote tc.name },
       false)

/-- Dispatch a turn's worth of detected tool calls in sequence, stopping
as soon as an invocation returns (confirmation suspension or error). -/
def runDispatch (exec : ToolCall → Bool) : LoopSt → List ToolCall → List Ev × LoopSt
  | st, [] => ([], st)
  | st, tc :: rest =>
    let r := dispatchStep exec st tc
    if r.2.2 then (r.1, r.2.1)
    else
      let r2 := runDispatch exec r.2.1 rest
      (r.1 ++ r2.1, r2.2)

/-- The approval path of the `tool_confirm` handler
(ide_server.py:2685-2731): pop the pending entry, execute the tool once,
emit its result (and `file_modified` for a successful `edit_file` /
`write_file`).  The loop re-entry of lines 2713-2731 is guarded by
`hasattr(self, "_pending_loop_context")`; that attribute is never set
because line 3009 raised mid-assignment, so no re-entry follows. -/
def approveConfirm (exec : ToolCall → Bool) (st : LoopSt) (cid : Nat) : List Ev × LoopSt :=
  match st.pending.find? (fun e => e.1 = cid) with
  | none => ([], st)
  | some (_, tc) =>
    let ok := exec tc
    ([Ev.toolResult tc.name ok]
       ++ (if tc.name ∈ (["edit_file", "write_file"] : List String) ∧ ok then
             [Ev.fileModified tc.filePath]
           else []),
     { st with pending := st.pending.filter (fun e => e.1 ≠ cid) })

/-- Number of calls in a turn whose tool name is in `exploration_tools`. -/
def countExplCalls (calls : List ToolCall) : Nat :=
  (calls.filter (fun tc => tc.name ∈ explorationToolNames)).length

/-- Number of exploration-tool executions an event list records
(`tool_executing` events carrying an exploration count). -/
def countExecutedExpl (evs : List Ev) : Nat :=
  (evs.filter (fun e => match e with
    | .toolExecuting _ (some _) => true
    | _ => false)).length

/-- Does the event list contain a `tool_confirm_request`? -/
def hasConfirmRequest (evs : List Ev) : Bool :=
  evs.any (fun e => match e with
    | .confirmRequest _ _ => true
    | _ => false)

/-- Does the event list contain a `waiting_confirmation`? -/
def hasWaitingConfirmation (evs : List Ev) : Bool :=
  evs.any (fun e => match e with
    | .waitingConfirmation _ => true
    | _ => false)

/-- `re.IGNORECASE` character comparison: exact match, or case-folded
match for letters (folding touches letters only). -/
def charCIEq (a c : Char) : Bool :=
  a = c || (a.isAlpha && c.isAlpha && a.toLower = c.toLower)

/-- Strip a literal from the head of the input under `re.IGNORECASE`,
returning the remainder on success. -/
def stripLitCI : List Char → List Char → Option (List Char)
  | [], l => some l
  | _ :: _, [] => none
  | a :: as, c :: cs => if charCIEq a c then stripLitCI as cs else none

/-- `\w` of the `re` module (ASCII portion — the tool names emitted in
practice are ASCII identifiers). -/
def isWordChar (c : Char) : Bool :=
  c.isAlphanum || c = '_'

/-- Split at the first occurrence of `n`: Python `l.split(n)[0]` paired
with `l.split(n, 1)[1]`, and the lazy `(.*?)` capture running up to the
next fence. -/
def splitOnFirstL (n l : List Char) : Option (List Char × List Char) :=
  (StrUtil.findSubL n l).map (fun i => (l.take i, l.drop (i + n.length)))

/-- One structural match of a tool-block pattern: the tool name, the raw
capture between the fences, and the input remaining after the match. -/
structure RMatch where
  name : List Char
  content : List Char
  rest : List Char
deriving DecidableEq, Repr

/-- The main pattern of `_parse_tool_block` (ide_server.py:3169),
`\[TOOL:(\w+)\]\s*`‐fence`(?:json)?\s*(.*?)\s*`‐fence with
`re.DOTALL | re.IGNORECASE`, matched at the head of the input: literal
sentinel, a non-empty word-character run, `]`, optional whitespace, an
opening fence optionally followed by `json`, then the lazy capture up to
the first closing fence (the `\s*` framing of the capture is subsumed by
the `.strip()` the caller applies). -/
def tryToolAt (l : List Char) : Option RMatch :=
  match stripLitCI "[TOOL:".data l with
  | none => none
  | some r1 =>
    let name := r1.takeWhile isWordChar
    if name = [] then none
    else
      match r1.drop name.length with
      | c :: r2 =>
        if c = ']' then
          let r3 := r2.dropWhile Char.isWhitespace
          match stripLitCI "```".data r3 with
          | none => none
          | some r4 =>
            let r5 :=
              match stripLitCI "json".data r4 with
              | some x => x
              | none => r4
            match splitOnFirstL "```".data r5 with
            | none => none
            | some (content, rest) => some ⟨name, content, rest⟩
        else none
      | [] => none

/-- The pattern of `_detect_tool_calls` (ide_server.py:3213),
`\[TOOL:(\w+)\]\s*`‐fence`json?\s*(.*?)\s*`‐fence: unlike
`_parse_tool_block` the fence marker here is `json?` — the literal
`jso` with an optional trailing `n` — so a block fenced with a bare
fence does not match this fallback detector. -/
def tryDetectAt (l : List Char) : Option RMatch :=
  match stripLitCI "[TOOL:".data l with
  | none => none
  | some r1 =>
    let name := r1.takeWhile isWordChar
    if name = [] then none
    else
      match r1.drop name.length with
      | c :: r2 =>
        if c = ']' then
          let r3 := r2.dropWhile Char.isWhitespace
          match stripLitCI "```jso".data r3 with
          | none => none
          | some r4 =>
            let r5 :=
              match r4 with
              | d :: cs => if charCIEq 'n' d then cs else r4
              | [] => r4
            match splitOnFirstL "```".data r5 with
            | none => none
            | some (content, rest) => some ⟨name, content, rest⟩
        else none
      | [] => none

/-- The alternative pattern shared by both parsers
(ide_server.py:3188, 3227), `‐fence`tool:(\w+)\s*(.*?)\s*`‐fence. -/
def tryAltAt (l : List Char) : Option RMatch :=
  match stripLitCI "```tool:".data l with
  | none => none
  | some r1 =>
    let name := r1.takeWhile isWordChar
    if name = [] then none
    else
      match splitOnFirstL "```".data (r1.drop name.length) with
      | none => none
      | some (content, rest) => some ⟨name, content, rest⟩

/-- Leftmost match of an anchored pattern (`re.search`): try every start
position left to right. -/
def scanFor (tryF : List Char → Option RMatch) : List Char → Option RMatch
  | [] => none
  | l@(_ :: t) =>
    match tryF l with
    | some m => some m
    | none => scanFor tryF t

/-- All non-overlapping matches (`re.findall`): leftmost match, then
continue after its end.  Fuelled by the caller with the input length —
every match consumes at least one character. -/
def findallFor (tryF : List Char → Option RMatch) : Nat → List Char → List RMatch
  | 0, _ => []
  | fuel + 1, l =>
    match scanFor tryF l with
    | none => []
    | some m => m :: findallFor tryF fuel m.rest

/-- JSON whitespace skipping (`json.loads`; the four JSON whitespace
characters coincide with `Char.isWhitespace`). -/
def jsonSkipWs (l : List Char) : List Char :=
  l.dropWhile Char.isWhitespace

/-- Hexadecimal digit test for `\uXXXX` escapes. -/
def isHexDigitC (c : Char) : Bool :=
  c.isDigit || ('a' ≤ c && c ≤ 'f') || ('A' ≤ c && c ≤ 'F')

/-- Consume the remainder of a JSON string after its opening quote,
returning the input after the closing quote.  Escapes follow the JSON
grammar; raw control characters are rejected, as `json.loads` does. -/
def jsonStringRest : List Char → Option (List Char)
  | [] => none
  | '"' :: r => some r
  | '\\' :: e :: r2 =>
    if e ∈ ['"', '\\', '/', 'b', 'f', 'n', 'r', 't'] then jsonStringRest r2
    else if e = 'u' then
      match r2 with
      | a :: b :: d :: e4 :: r3 =>
        if isHexDigitC a && isHexDigitC b && isHexDigitC d && isHexDigitC e4 then
          jsonStringRest r3
        else none
      | _ => none
    else none
  | '\\' :: [] => none
  | c :: r =>
    if c.val < 32 then none else jsonStringRest r

/-- One or more decimal digits. -/
def jsonDigits (l : List Char) : Option (List Char) :=
  let ds := l.takeWhile Char.isDigit
  if ds = [] then none else some (l.drop ds.length)

/-- Consume a JSON number after an optional leading minus (JSON number
grammar: int, optional fraction, optional exponent). -/
def jsonNumberRest (l : List Char) : Option (List Char) :=
  let afterInt : Option (List Char) :=
    match l with
    | '0' :: r => some r
    | c :: _ => if c.isDigit then some (l.dropWhile Char.isDigit) else none
    | [] => none
  match afterInt with
  | none => none
  | some r1 =>
    let afterFrac : Option (List Char) :=
      match r1 with
      | '.' :: r => jsonDigits r
      | _ => some r1
    match afterFrac with
    | none => none
    | some r2 =>
      match r2 with
      | 'e' :: r | 'E' :: r =>
        match r with
        | '+' :: r3 | '-' :: r3 => jsonDigits r3
        | r3 => jsonDigits r3
      | _ => some r2

/-- Match an exact literal at the head. -/
def stripLitEx : List Char → List Char → Option (List Char)
  | [], l => some l
  | _ :: _, [] => none
  | a :: as, c :: cs => if a = c then stripLitEx as cs else none

/-- Grammar position of the fuelled JSON descent: a value, the members
of an object, or the items of an array (`first` allows the empty
container). -/
inductive JMode
  | val
  | members (first : Bool)
  | items (first : Bool)

/-- Fuelled recursive descent over the `json.loads` grammar; consumes
one production and returns the remaining input. -/
def jsonRun : Nat → JMode → List Char → Option (List Char)
  | 0, _, _ => none
  | fuel + 1, .val, l =>
    match jsonSkipWs l with
    | '\x7b' :: r => jsonRun fuel (.members true) (jsonSkipWs r)
    | '[' :: r => jsonRun fuel (.items true) (jsonSkipWs r)
    | '"' :: r => jsonStringRest r
    | 't' :: r => stripLitEx "rue".data r
    | 'f' :: r => stripLitEx "alse".data r
    | 'n' :: r => stripLitEx "ull".data r
    | '-' :: r => jsonNumberRest r
    | l2 => jsonNumberRest l2
  | fuel + 1, .members first, l =>
    match l with
    | '\x7d' :: r => if first then some r else none
    | '"' :: r =>
      match jsonStringRest r with
      | none => none
      | some r2 =>
        match jsonSkipWs r2 with
        | ':' :: r3 =>
          match jsonRun fuel .val r3 with
          | none => none
          | some r4 =>
            match jsonSkipWs r4 with
            | ',' :: r5 =>
              match jsonSkipWs r5 with
              | '\x7d' :: _ => none
              | r6 => jsonRun fuel (.members false) r6
            | '\x7d' :: r5 => some r5
            | _ => none
        | _ => none
    | _ => none
  | fuel + 1, .items first, l =>
    match l with
    | ']' :: r => if first then some r else none
    | _ =>
      match jsonRun fuel .val l with
      | none => none
      | some r2 =>
        match jsonSkipWs r2 with
        | ',' :: r3 =>
          match jsonSkipWs r3 with
          | ']' :: _ => none
          | r4 => jsonRun fuel (.items false) r4
        | ']' :: r3 => some r3
        | _ => none

/-- Would `json.loads` accept this input?  (The parsed value itself is
irrelevant to the loop: `tool_input` is carried opaquely.) -/
def jsonOkL (l : List Char) : Bool :=
  match jsonRun (l.length + 1) .val l with
  | some rest => jsonSkipWs rest = []
  | none => false

/-- `_parse_tool_block` (ide_server.py:3156-3204): one leftmost search
of the main pattern; if its regex matches but the stripped capture fails
`json.loads`, `None` is returned without retrying at later positions;
the alternative pattern is tried only when the main pattern has no regex
match at all. -/
def parseToolBlockM (l : List Char) : Option (List Char × List Char) :=
  match scanFor tryToolAt l with
  | some m =>
    let body := StrUtil.stripWs m.content
    if jsonOkL body then some (m.name, body) else none
  | none =>
    match scanFor tryAltAt l with
    | some m =>
      let body := StrUtil.stripWs m.content
      if jsonOkL body then some (m.name, body) else none
    | none => none

/-- `_detect_tool_calls` (ide_server.py:3206-3238): collect every
non-overlapping match of the fallback pattern whose stripped capture
parses as JSON, then the alternative-pattern matches; the loop uses only
the first entry. -/
def detectToolCallsM (l : List Char) : List (List Char × List Char) :=
  let keep : RMatch → Option (List Char × List Char) := fun m =>
    let body := StrUtil.stripWs m.content
    if jsonOkL body then some (m.name, body) else none
  ((findallFor tryDetectAt (l.length + 1) l).filterMap keep)
    ++ ((findallFor tryAltAt (l.length + 1) l).filterMap keep)

/-- The per-iteration interception state of `_run_agentic_loop`
(ide_server.py:2874-2878): the accumulated raw response, the prefix
already forwarded to the UI, the tool-block buffer, the mode flag, the
forwarded `token` payloads in order, and the detected tool. -/
structure StreamSt where
  currentResponse : List Char := []
  displayBuffer : List Char := []
  toolBlockBuffer : List Char := []
  inToolBlock : Bool := false
  forwarded : List (List Char) := []
  detected : Option (List Char × List Char) := none
deriving DecidableEq, Repr

/-- Processing of one `token` queue entry (ide_server.py:2883-2945).
Returns the new state and whether the token loop breaks (tool detected;
the abort signal and `tool_detected` event it triggers are outside the
forwarded-token model). -/
def streamStep (st : StreamSt) (chunk : List Char) : StreamSt × Bool :=
  let cr := st.currentResponse ++ chunk
  if st.inToolBlock then
    let tb := st.toolBlockBuffer ++ chunk
    if 2 ≤ StrUtil.countSubL "```".data tb then
      match parseToolBlockM tb with
      | some tc =>
        ({ st with currentResponse := cr, toolBlockBuffer := tb, detected := some tc }, true)
      | none =>
        ({ st with currentResponse := cr, inToolBlock := false,
                   forwarded := st.forwarded ++ [tb],
                   displayBuffer := st.displayBuffer ++ tb,
                   toolBlockBuffer := [] }, false)
    else
      ({ st with currentResponse := cr, toolBlockBuffer := tb }, false)
  else
    if StrUtil.containsSubL cr "[TOOL:".data then
      let idx := (StrUtil.findSubL "[TOOL:".data cr).getD 0
      let beforeTool := cr.take idx
      let fwd :=
        if beforeTool ≠ [] ∧ StrUtil.hasNonWs beforeTool
            ∧ ¬ StrUtil.containsSubL st.displayBuffer beforeTool then
          let newText := beforeTool.drop st.displayBuffer.length
          if newText ≠ [] then st.forwarded ++ [newText] else st.forwarded
        else st.forwarded
      ({ st with currentResponse := cr,
                 displayBuffer := beforeTool,
                 inToolBlock := true,
                 toolBlockBuffer := "[TOOL:".data ++ cr.drop (idx + 6),
                 forwarded := fwd }, false)
    else
      ({ st with currentResponse := cr,
                 displayBuffer := st.displayBuffer ++ chunk,
                 forwarded := st.forwarded ++ [chunk] }, false)

/-- Fold the token loop over the chunk sequence, stopping at a break. -/
def runStream : StreamSt → List (List Char) → StreamSt
  | st, [] => st
  | st, chunk :: rest =>
    let r := streamStep st chunk
    if r.2 then r.1 else runStream r.1 rest

/-- One full streamed response (ide_server.py:2874-2976): run the token
loop from the empty state, then — when the in-stream interceptor did not
fire — fall back to `_detect_tool_calls` over the whole accumulated
response, keeping only the first call. -/
def runStreamFull (chunks : List (List Char)) : StreamSt :=
  let st := runStream {} chunks
  match st.detected with
  | some _ => st
  | none =>
    match (detectToolCallsM st.currentResponse).head? with
    | some tc => { st with detected := some tc }
    | none => st

/-- The bytes of the full response strictly before the first `[TOOL:`
sentinel (the whole response when no sentinel occurs). -/
def prefixBeforeSentinel (l : List Char) : List Char :=
  l.take ((StrUtil.findSubL "[TOOL:".data l).getD l.length)

/-- Claim-C5 counterexample stream: the `[TOOL:` sentinel is split
across the first two chunks, so the first chunk — whose tail lies at and
after the sentinel — is forwarded before the interceptor can see the
sentinel. -/
def c5chunksA : List (List Char) :=
  ["A[TOO".data, "L:read_file]```json \x7b\x7d ```".data, "X".data]

/-- Claim-C5 counterexample stream for the prose-forwarding direction: a
whitespace-only prefix before the sentinel is silently dropped by the
`before_tool.strip()` guard. -/
def c5chunksB : List (List Char) :=
  [" [TOOL:read_file]```json \x7b\x7d ```".data]

end IdeServer

namespace CodeTools

/-- The file-system thread of the commit loop coincides with `redo`'s
forward re-application: `commit` applies the changes in order and keeps
going past failures. -/
theorem commitRun_snd_eq_redoRun (s : Fs) (cs : List FileChange) :
    (commitRun s cs).2 = redoRun s cs := by
  induction cs generalizing s with
  | nil => rfl
  | cons c cs ih => simpa [commitRun, redoRun] using ih (applyChange s c).2

end CodeTools

/-- C1: on every destructive tool call (`write_file`, `edit_file`,
`bash` — the only confirmation-gated names in the source) the loop
registers the pending confirmation but then crashes on the unbound local
`stream` at ide_server.py:3009: the UI receives a single `error` event
and never a `tool_confirm_request` or `waiting_confirmation`; an
approval carrying the registered id would execute the tool once and emit
its result, but no loop re-entry follows because `_pending_loop_context`
was never assigned.  Evaluated here at the spec's scenario-1 input, an
`edit_file` call. -/
theorem c1_confirm_flow_crashes :
    (IdeServer.runDispatch (fun _ => true) {} [⟨"edit_file", "x", some "foo.py"⟩]).1
        = [IdeServer.Ev.errorEv IdeServer.nameErrorStream] ∧
      IdeServer.hasConfirmRequest
        (IdeServer.runDispatch (fun _ => true) {} [⟨"edit_file", "x", some "foo.py"⟩]).1 = false ∧
      IdeServer.hasWaitingConfirmation
        (IdeServer.runDispatch (fun _ => true) {} [⟨"edit_file", "x", some "foo.py"⟩]).1 = false ∧
      (IdeServer.runDispatch (fun _ => true) {} [⟨"edit_file", "x", some "foo.py"⟩]).2.pending
        = [(0, ⟨"edit_file", "x", some "foo.py"⟩)] ∧
      IdeServer.approveConfirm (fun _ => true)
        (IdeServer.runDispatch (fun _ => true) {} [⟨"edit_file", "x", some "foo.py"⟩]).2 0
        = ([IdeServer.Ev.toolResult "edit_file" true,
            IdeServer.Ev.fileModified (some "foo.py")], { pending := [], nextCid := 1 }) := by
  decide

/-- C2, counterexample: executing the spec's scenario-1 `edit_file` on
`foo.py` succeeds and rewrites the file, but the undo stack stays empty
— there is no transaction on top holding the pre-state, because the tool
handlers of `ToolExecutor.execute` write files directly and never touch
the `TransactionManager`. -/
theorem c2_counterexample :
    (IdeServer.toolEditFile
        ⟨fun q => if q = "/ws/foo.py" then some "print(\"hi\")\n" else none, [], fun _ => none⟩
        "/ws" "foo.py" "hi" "hello" none none "").1.success = true ∧
      (IdeServer.toolEditFile
        ⟨fun q => if q = "/ws/foo.py" then some "print(\"hi\")\n" else none, [], fun _ => none⟩
        "/ws" "foo.py" "hi" "hello" none none "").2.fs "/ws/foo.py"
        = some "print(\"hello\")\n" ∧
      (IdeServer.toolEditFile
        ⟨fun q => if q = "/ws/foo.py" then some "print(\"hi\")\n" else none, [], fun _ => none⟩
        "/ws" "foo.py" "hi" "hello" none none "").2.undoStack = [] := by
  decide

/-- C2, amended: after an approved and successful `edit_file` or
`write_file` tool execution the target file does contain the new
content, but no transaction is recorded: the undo stack is exactly what
it was before the call (the tool path bypasses the TransactionManager;
only the HTTP save/edit endpoints and `multi_edit` create
transactions). -/
theorem c2_amended :
    (∀ (fs : CodeTools.Fs) (stack : List CodeTools.Transaction)
        (sym : String → Option String) (ws p old new content : String),
      fs (IdeServer.osPathJoin ws p) = some content →
      old ≠ "" →
      StrUtil.strContains content old = true →
      (IdeServer.toolEditFile ⟨fs, stack, sym⟩ ws p old new none none "").1.success = true ∧
        (IdeServer.toolEditFile ⟨fs, stack, sym⟩ ws p old new none none "").2.fs
            (IdeServer.osPathJoin ws p)
          = some (StrUtil.strReplaceFirst content old new) ∧
        (IdeServer.toolEditFile ⟨fs, stack, sym⟩ ws p old new none none "").2.undoStack = stack) ∧
    (∀ (fs : CodeTools.Fs) (stack : List CodeTools.Transaction)
        (sym : String → Option String) (ws p c : String),
      (IdeServer.toolWriteFile ⟨fs, stack, sym⟩ ws p c).1.success = true ∧
        (IdeServer.toolWriteFile ⟨fs, stack, sym⟩ ws p c).2.fs (IdeServer.osPathJoin ws p)
          = some c ∧
        (IdeServer.toolWriteFile ⟨fs, stack, sym⟩ ws p c).2.undoStack = stack) := by
  constructor
  · intro fs stack sym ws p old new content hread hold hocc
    simp [IdeServer.toolEditFile, hread, hold, hocc, CodeTools.Fs.update]
  · intro fs stack sym ws p c
    simp [IdeServer.toolWriteFile, CodeTools.Fs.update]

/-- C2, witness: the amended statement evaluated at the scenario-1
input. -/
theorem c2_amended_witness :
    ((fun q => if q = "/ws/foo.py" then some "print(\"hi\")\n" else none : CodeTools.Fs)
        (IdeServer.osPathJoin "/ws" "foo.py") = some "print(\"hi\")\n" ∧
      ("hi" : String) ≠ "" ∧
      StrUtil.strContains "print(\"hi\")\n" "hi" = true) ∧
    ((IdeServer.toolEditFile
        ⟨fun q => if q = "/ws/foo.py" then some "print(\"hi\")\n" else none, [], fun _ => none⟩
        "/ws" "foo.py" "hi" "hello" none none "").1.success = true ∧
      (IdeServer.toolEditFile
        ⟨fun q => if q = "/ws/foo.py" then some "print(\"hi\")\n" else none, [], fun _ => none⟩
        "/ws" "foo.py" "hi" "hello" none none "").2.fs (IdeServer.osPathJoin "/ws" "foo.py")
        = some (StrUtil.strReplaceFirst "print(\"hi\")\n" "hi" "hello") ∧
      (IdeServer.toolEditFile
        ⟨fun q => if q = "/ws/foo.py" then some "print(\"hi\")\n" else none, [], fun _ => none⟩
        "/ws" "foo.py" "hi" "hello" none none "").2.undoStack = []) :=
  ⟨⟨by decide, by decide, by decide⟩,
    c2_amended.1 _ [] (fun _ => none) "/ws" "foo.py" "hi" "hello" "print(\"hi\")\n"
      (by decide) (by decide) (by decide)⟩

/-- C3, counterexample: a transaction whose first change applies and
whose second fails (deleting a file that does not exist) is marked
failed and is not pushed — but the applied first change is **not**
rolled back: the created file `A` persists although the workspace held
nothing before the commit began.  The commit loop has no rollback and
keeps applying past a failure. -/
theorem c3_counterexample :
    (CodeTools.commitModel CodeTools.Fs.empty []
        (CodeTools.stageTx CodeTools.Fs.empty [.write "A" "x", .del "B"])).1.applied = false ∧
      (CodeTools.commitModel CodeTools.Fs.empty []
        (CodeTools.stageTx CodeTools.Fs.empty [.write "A" "x", .del "B"])).2.1 = [] ∧
      (CodeTools.commitModel CodeTools.Fs.empty []
        (CodeTools.stageTx CodeTools.Fs.empty [.write "A" "x", .del "B"])).2.2 "A" = some "x" ∧
      CodeTools.Fs.empty "A" = none := by
  decide

/-- C3, amended: when applying some change fails, the transaction is
marked failed and is not pushed onto the undo stack — but already
applied changes are left applied and every remaining change is still
attempted: the final workspace is the forward fold of all the changes
(`redoRun`), not the pre-commit state. -/
theorem c3_amended (s0 : CodeTools.Fs) (stack : List CodeTools.Transaction)
    (cs : List CodeTools.FileChange)
    (h : (CodeTools.commitRun s0 cs).1 = false) :
    (CodeTools.commitModel s0 stack cs).1.applied = false ∧
      (CodeTools.commitModel s0 stack cs).2.1 = stack ∧
      (CodeTools.commitModel s0 stack cs).2.2 = CodeTools.redoRun s0 cs := by
  have hr := CodeTools.commitRun_snd_eq_redoRun s0 cs
  simp [CodeTools.commitModel, h, hr]

/-- C3, witness: the amended statement evaluated at the counterexample
transaction. -/
theorem c3_amended_witness :
    (CodeTools.commitRun CodeTools.Fs.empty
        (CodeTools.stageTx CodeTools.Fs.empty [.write "A" "x", .del "B"])).1 = false ∧
      ((CodeTools.commitModel CodeTools.Fs.empty []
          (CodeTools.stageTx CodeTools.Fs.empty [.write "A" "x", .del "B"])).1.applied = false ∧
        (CodeTools.commitModel CodeTools.Fs.empty []
          (CodeTools.stageTx CodeTools.Fs.empty [.write "A" "x", .del "B"])).2.1 = [] ∧
        (CodeTools.commitModel CodeTools.Fs.empty []
          (CodeTools.stageTx CodeTools.Fs.empty [.write "A" "x", .del "B"])).2.2
          = CodeTools.redoRun CodeTools.Fs.empty
              (CodeTools.stageTx CodeTools.Fs.empty [.write "A" "x", .del "B"])) :=
  ⟨by decide, c3_amended CodeTools.Fs.empty [] _ (by decide)⟩

namespace StrUtil

/-- Python `n in l` holds exactly when the non-overlapping occurrence
count is at least one. -/
theorem containsSubL_iff_one_le_countSubL (l n : List Char) :
    containsSubL l n = true ↔ 1 ≤ countSubL n l := by
  by_cases hn : n = []
  · subst hn
    refine ⟨fun _ => by simp [countSubL], fun _ => ?_⟩
    cases l <;> simp [containsSubL, findSubL, List.isPrefixOf]
  · have key : ∀ l, containsSubL l n = true ↔ 1 ≤ countSubAux n l 0 := by
      intro l
      induction l with
      | nil => simp [containsSubL, findSubL, hn, countSubAux]
      | cons c t ih =>
        by_cases h : n.isPrefixOf (c :: t)
        · simp [containsSubL, findSubL, h, countSubAux]
        · simpa [containsSubL, findSubL, h, countSubAux, Option.isSome_map] using ih
    simp [countSubL, hn, key l]

end StrUtil

/-- C7, counterexample: in text mode the `edit_file` tool does **not**
require a unique occurrence: with `old_text` occurring twice the call
succeeds and replaces the first occurrence — the handler only checks
`old_text not in content` and then calls
`content.replace(old_text, new_text, 1)` (ide_server.py:925-939); the
uniqueness check lives in `CodeEditor.edit`, which this tool path never
calls. -/
theorem c7_counterexample :
    StrUtil.strCount "foo foo" "foo" = 2 ∧
      (IdeServer.toolEditFile
        ⟨fun q => if q = "/ws/a.txt" then some "foo foo" else none, [], fun _ => none⟩
        "/ws" "a.txt" "foo" "bar" none none "").1.success = true ∧
      (IdeServer.toolEditFile
        ⟨fun q => if q = "/ws/a.txt" then some "foo foo" else none, [], fun _ => none⟩
        "/ws" "a.txt" "foo" "bar" none none "").2.fs "/ws/a.txt" = some "bar foo" := by
  decide

/-- C7, amended: a text-mode `edit_file` call on an existing file with a
non-empty `old_text` succeeds exactly when `old_text` occurs **at least
once**; on success the first occurrence is replaced, and when the
occurrence count is zero the call fails with the text-not-found error
leaving the state untouched.  (An occurrence count greater than one is
not rejected.) -/
theorem c7_amended (fs : CodeTools.Fs) (stack : List CodeTools.Transaction)
    (sym : String → Option String) (ws p old new content : String)
    (hread : fs (IdeServer.osPathJoin ws p) = some content)
    (hold : old ≠ "") :
    ((IdeServer.toolEditFile ⟨fs, stack, sym⟩ ws p old new none none "").1.success = true
        ↔ 1 ≤ StrUtil.strCount content old) ∧
      (1 ≤ StrUtil.strCount content old →
        (IdeServer.toolEditFile ⟨fs, stack, sym⟩ ws p old new none none "").2.fs
            (IdeServer.osPathJoin ws p)
          = some (StrUtil.strReplaceFirst content old new)) ∧
      (StrUtil.strCount content old = 0 →
        (IdeServer.toolEditFile ⟨fs, stack, sym⟩ ws p old new none none "").1.error
            = some "Text not found in file" ∧
          (IdeServer.toolEditFile ⟨fs, stack, sym⟩ ws p old new none none "").2
            = ⟨fs, stack, sym⟩) := by
  have hiff := StrUtil.containsSubL_iff_one_le_countSubL content.data old.data
  by_cases hocc : StrUtil.strContains content old = true
  · have hcnt : 1 ≤ StrUtil.strCount content old := by
      exact hiff.mp (by simpa [StrUtil.strContains] using hocc)
    refine ⟨?_, fun _ => ?_, fun hzero => ?_⟩
    · simp [IdeServer.toolEditFile, hread, hold, hocc, hcnt]
    · simp [IdeServer.toolEditFile, hread, hold, hocc, CodeTools.Fs.update]
    · omega
  · have hocc' : StrUtil.strContains content old = false := by
      simpa using hocc
    have hcnt : ¬ 1 ≤ StrUtil.strCount content old := by
      intro hc
      exact hocc (hiff.mpr (by simpa [StrUtil.strCount] using hc))
    refine ⟨?_, fun hc => absurd hc hcnt, fun _ => ?_⟩
    · simp [IdeServer.toolEditFile, hread, hold, hocc']
      omega
    · simp [IdeServer.toolEditFile, hread, hold, hocc']

/-- C7, witness: the amended statement evaluated at a file holding
`"foo foo"` with `old_text = "foo"`. -/
theorem c7_amended_witness :
    ((fun q => if q = "/ws/a.txt" then some "foo foo" else none : CodeTools.Fs)
        (IdeServer.osPathJoin "/ws" "a.txt") = some "foo foo" ∧ ("foo" : String) ≠ "") ∧
      (((IdeServer.toolEditFile
          ⟨fun q => if q = "/ws/a.txt" then some "foo foo" else none, [], fun _ => none⟩
          "/ws" "a.txt" "foo" "bar" none none "").1.success = true
            ↔ 1 ≤ StrUtil.strCount "foo foo" "foo") ∧
        (1 ≤ StrUtil.strCount "foo foo" "foo" →
          (IdeServer.toolEditFile
            ⟨fun q => if q = "/ws/a.txt" then some "foo foo" else none, [], fun _ => none⟩
            "/ws" "a.txt" "foo" "bar" none none "").2.fs (IdeServer.osPathJoin "/ws" "a.txt")
            = some (StrUtil.strReplaceFirst "foo foo" "foo" "bar")) ∧
        (StrUtil.strCount "foo foo" "foo" = 0 →
          (IdeServer.toolEditFile
            ⟨fun q => if q = "/ws/a.txt" then some "foo foo" else none, [], fun _ => none⟩
            "/ws" "a.txt" "foo" "bar" none none "").1.error = some "Text not found in file" ∧
          (IdeServer.toolEditFile
            ⟨fun q => if q = "/ws/a.txt" then some "foo foo" else none, [], fun _ => none⟩
            "/ws" "a.txt" "foo" "bar" none none "").2
            = ⟨fun q => if q = "/ws/a.txt" then some "foo foo" else none, [], fun _ => none⟩)) :=
  ⟨⟨by decide, by decide⟩,
    c7_amended _ [] (fun _ => none) "/ws" "a.txt" "foo" "bar" "foo foo" (by decide) (by decide)⟩

/-- C8, counterexample: an absolute `file_path` makes
`os.path.join(workspace, file_path)` discard the workspace root
entirely; the `write_file` tool then happily writes `/etc/passwd`, a
path outside `/ws`, with no safety error — no workspace-escape check
exists on the tool path (nor in `SafeFileOps._resolve_path`). -/
theorem c8_counterexample :
    IdeServer.osPathJoin "/ws" "/etc/passwd" = "/etc/passwd" ∧
      ("/ws/".data.isPrefixOf "/etc/passwd".data) = false ∧
      (IdeServer.toolWriteFile ⟨fun _ => none, [], fun _ => none⟩
        "/ws" "/etc/passwd" "boom").1.success = true ∧
      (IdeServer.toolWriteFile ⟨fun _ => none, [], fun _ => none⟩
        "/ws" "/etc/passwd" "boom").2.fs "/etc/passwd" = some "boom" := by
  decide

/-- C8, amended: path arguments are resolved by joining them to the
workspace root, an absolute path replacing the root entirely; the
resolved path is used as-is — every `write_file` call succeeds and
writes at the resolved path, whether or not it lies inside the
workspace.  No safety rejection is performed. -/
theorem c8_amended (st : IdeServer.ExecState) (ws p c : String) :
    (IdeServer.toolWriteFile st ws p c).1.success = true ∧
      (IdeServer.toolWriteFile st ws p c).2.fs (IdeServer.osPathJoin ws p) = some c ∧
      IdeServer.osPathJoin ws p
        = (if p.data.head? = some '/' then p else ws ++ "/" ++ p) := by
  refine ⟨rfl, ?_, rfl⟩
  simp [IdeServer.toolWriteFile, CodeTools.Fs.update]

/-- C6, counterexample: after 21 proposed `read_file` calls the
end-of-turn `exploration_count` is 21, **exceeding** `max_exploration`
(the counter increments before the cap check and keeps the incremented
value when the call is blocked), and only 20 exploration executions
happened; moreover `grep` — a read-only tool in the claim's set — is not
in the code's `exploration_tools`, so a subsequent `grep` is executed
without any budgeting even though the budget is exhausted. -/
theorem c6_counterexample :
    (IdeServer.runDispatch (fun _ => true) {}
        (List.replicate 21 (⟨"read_file", "x", some "a.py"⟩ : IdeServer.ToolCall)
          ++ [⟨"grep", "x", none⟩])).2.explorationCount = 21 ∧
      IdeServer.maxExploration <
        (IdeServer.runDispatch (fun _ => true) {}
          (List.replicate 21 (⟨"read_file", "x", some "a.py"⟩ : IdeServer.ToolCall)
            ++ [⟨"grep", "x", none⟩])).2.explorationCount ∧
      IdeServer.countExecutedExpl
        (IdeServer.runDispatch (fun _ => true) {}
          (List.replicate 21 (⟨"read_file", "x", some "a.py"⟩ : IdeServer.ToolCall)
            ++ [⟨"grep", "x", none⟩])).1 = 20 ∧
      IdeServer.Ev.toolExecuting "grep" none ∈
        (IdeServer.runDispatch (fun _ => true) {}
          (List.replicate 21 (⟨"read_file", "x", some "a.py"⟩ : IdeServer.ToolCall)
            ++ [⟨"grep", "x", none⟩])).1 := by
  decide

namespace IdeServer

theorem countExecutedExpl_append (a b : List Ev) :
    countExecutedExpl (a ++ b) = countExecutedExpl a + countExecutedExpl b := by
  simp [countExecutedExpl, List.filter_append]

theorem countExplCalls_cons (tc : ToolCall) (rest : List ToolCall) :
    countExplCalls (tc :: rest)
      = (if tc.name ∈ explorationToolNames then 1 else 0) + countExplCalls rest := by
  by_cases h : tc.name ∈ explorationToolNames <;>
    simp [countExplCalls, List.filter_cons, h, Nat.add_comm]

/-- Running the dispatch over a turn with no destructive tool: the
number of exploration executions is the exploration-call count clipped
to the remaining budget, while the raw counter adds every exploration
call, blocked or not. -/
theorem runDispatch_exploration (exec : ToolCall → Bool) :
    ∀ (calls : List ToolCall) (st : LoopSt),
      (∀ tc ∈ calls, tc.name ∉ needsConfirmNames) →
      countExecutedExpl (runDispatch exec st calls).1
          = min (countExplCalls calls) (maxExploration - st.explorationCount) ∧
        (runDispatch exec st calls).2.explorationCount
          = st.explorationCount + countExplCalls calls := by
  intro calls
  induction calls with
  | nil =>
    intro st _
    simp [runDispatch, countExecutedExpl, countExplCalls]
  | cons tc rest ih =>
    intro st h
    have htc : tc.name ∉ needsConfirmNames := h tc (List.mem_cons_self _ _)
    have hrest : ∀ t ∈ rest, t.name ∉ needsConfirmNames :=
      fun t ht => h t (List.mem_cons_of_mem _ ht)
    have hnm : tc.name ∉ (["edit_file", "write_file"] : List String) := by
      intro hm
      apply htc
      simp only [needsConfirmNames, List.mem_cons, List.not_mem_nil, or_false] at hm ⊢
      tauto
    by_cases hexp : tc.name ∈ explorationToolNames
    · by_cases hcap : maxExploration < st.explorationCount + 1
      · have hstep : dispatchStep exec st tc
            = ([Ev.token explorationStopToken],
               { st with explorationCount := st.explorationCount + 1,
                         userMessage := st.userMessage ++ explorationSystemNote }, false) := by
          simp [dispatchStep, htc, hexp, hcap]
        obtain ⟨ih1, ih2⟩ :=
          ih { st with explorationCount := st.explorationCount + 1,
                       userMessage := st.userMessage ++ explorationSystemNote } hrest
        simp only [runDispatch, hstep]
        simp only [Bool.false_eq_true, if_false, countExecutedExpl_append,
          countExplCalls_cons, if_pos hexp, ih1, ih2]
        have h1 : countExecutedExpl [Ev.token explorationStopToken] = 0 := by
          simp [countExecutedExpl]
        rw [h1]
        simp only [maxExploration] at *
        omega
      · have hstep : dispatchStep exec st tc
            = ([Ev.toolExecuting tc.name (some (st.explorationCount + 1))]
                ++ (match tc.filePath with
                    | some fp => if tc.name ∈ openInEditorNames then [Ev.openInEditor fp] else []
                    | none => [])
                ++ [Ev.toolResult tc.name (exec tc)]
                ++ (if tc.name ∈ (["edit_file", "write_file"] : List String) ∧ exec tc then
                      [Ev.fileModified tc.filePath]
                    else []),
               { st with explorationCount := st.explorationCount + 1,
                         userMessage := st.userMessage ++ contextUpdateNote tc.name },
               false) := by
          simp [dispatchStep, htc, hexp, hcap]
        obtain ⟨ih1, ih2⟩ :=
          ih { st with explorationCount := st.explorationCount + 1,
                       userMessage := st.userMessage ++ contextUpdateNote tc.name } hrest
        simp only [runDispatch, hstep]
        simp only [Bool.false_eq_true, if_false, countExecutedExpl_append,
          countExplCalls_cons, if_pos hexp, ih1, ih2, if_neg (by simp [hnm] : ¬(tc.name ∈
            (["edit_file", "write_file"] : List String) ∧ exec tc = true))]
        have h1 : countExecutedExpl [Ev.toolExecuting tc.name (some (st.explorationCount + 1))]
            = 1 := by simp [countExecutedExpl]
        have h2 : countExecutedExpl [Ev.toolResult tc.name (exec tc)] = 0 := by
          simp [countExecutedExpl]
        have h3 : countExecutedExpl (match tc.filePath with
            | some fp => if tc.name ∈ openInEditorNames then [Ev.openInEditor fp] else []
            | none => []) = 0 := by
          rcases tc.filePath with _ | fp
          · simp [countExecutedExpl]
          · by_cases hoe : tc.name ∈ openInEditorNames <;> simp [countExecutedExpl, hoe]
        have h0 : countExecutedExpl ([] : List Ev) = 0 := by simp [countExecutedExpl]
        rw [h1, h2, h3, h0]
        simp only [maxExploration] at *
        omega
    · have hstep : dispatchStep exec st tc
          = ([Ev.toolExecuting tc.name none]
              ++ (match tc.filePath with
                  | some fp => if tc.name ∈ openInEditorNames then [Ev.openInEditor fp] else []
                  | none => [])
              ++ [Ev.toolResult tc.name (exec tc)]
              ++ (if tc.name ∈ (["edit_file", "write_file"] : List String) ∧ exec tc then
                    [Ev.fileModified tc.filePath]
                  else []),
             { st with userMessage := st.userMessage ++ contextUpdateNote tc.name },
             false) := by
        simp [dispatchStep, htc, hexp]
      obtain ⟨ih1, ih2⟩ :=
        ih { st with userMessage := st.userMessage ++ contextUpdateNote tc.name } hrest
      simp only [runDispatch, hstep]
      simp only [Bool.false_eq_true, if_false, countExecutedExpl_append,
        countExplCalls_cons, if_neg hexp, ih1, ih2, if_neg (by simp [hnm] : ¬(tc.name ∈
          (["edit_file", "write_file"] : List String) ∧ exec tc = true))]
      have h1 : countExecutedExpl [Ev.toolExecuting tc.name none] = 0 := by
        simp [countExecutedExpl]
      have h2 : countExecutedExpl [Ev.toolResult tc.name (exec tc)] = 0 := by
        simp [countExecutedExpl]
      have h3 : countExecutedExpl (match tc.filePath with
          | some fp => if tc.name ∈ openInEditorNames then [Ev.openInEditor fp] else []
          | none => []) = 0 := by
        rcases tc.filePath with _ | fp
        · simp [countExecutedExpl]
        · by_cases hoe : tc.name ∈ openInEditorNames <;> simp [countExecutedExpl, hoe]
      have h0 : countExecutedExpl ([] : List Ev) = 0 := by simp [countExecutedExpl]
      rw [h1, h2, h3, h0]
      simp only [maxExploration] at *
      omega

end IdeServer

/-- C6, amended: over a turn of non-destructive tool calls, at most
`max_exploration = 20` exploration tools are executed — a call that
would push past the budget is not executed, a token notice is emitted
and a system note re-enters the loop instead — but the exploration set
is only `{read_file, list_dir, search_code}` (the other read-only tools
of the claim are unbudgeted), and the `exploration_count` variable
itself counts every exploration call, so at end of turn it can exceed
20. -/
theorem c6_amended (exec : IdeServer.ToolCall → Bool) (calls : List IdeServer.ToolCall)
    (h : ∀ tc ∈ calls, tc.name ∉ IdeServer.needsConfirmNames) :
    IdeServer.countExecutedExpl (IdeServer.runDispatch exec {} calls).1
        = min (IdeServer.countExplCalls calls) IdeServer.maxExploration ∧
      (IdeServer.runDispatch exec {} calls).2.explorationCount
        = IdeServer.countExplCalls calls := by
  have := IdeServer.runDispatch_exploration exec calls {} h
  simpa using this

/-- C6, witness: the amended statement evaluated at a turn of 21
`read_file` proposals. -/
theorem c6_amended_witness :
    (∀ tc ∈ List.replicate 21 (⟨"read_file", "x", some "a.py"⟩ : IdeServer.ToolCall),
        tc.name ∉ IdeServer.needsConfirmNames) ∧
      (IdeServer.countExecutedExpl
          (IdeServer.runDispatch (fun _ => true) {}
            (List.replicate 21 (⟨"read_file", "x", some "a.py"⟩ : IdeServer.ToolCall))).1
          = min (IdeServer.countExplCalls
              (List.replicate 21 (⟨"read_file", "x", some "a.py"⟩ : IdeServer.ToolCall)))
              IdeServer.maxExploration ∧
        (IdeServer.runDispatch (fun _ => true) {}
            (List.replicate 21 (⟨"read_file", "x", some "a.py"⟩ : IdeServer.ToolCall))).2.explorationCount
          = IdeServer.countExplCalls
              (List.replicate 21 (⟨"read_file", "x", some "a.py"⟩ : IdeServer.ToolCall))) :=
  ⟨by decide, c6_amended (fun _ => true) _ (by decide)⟩

namespace IdeServer

theorem range'_cons_of (s n : Nat) : List.range' s (n + 1) = s :: List.range' (s + 1) n := by
  simp [List.range']

/-- The capped collection loop emits exactly the consecutive line
numbers from `i + 1` up to its final `end_idx`, which lies between `i`
and `i + rest.length`. -/
theorem capGo_spec (maxChars : Nat) :
    ∀ (rest : List String) (i cc : Nat) (ne : Bool),
      (capGo maxChars rest i cc ne).1.map Prod.fst
          = List.range' (i + 1) ((capGo maxChars rest i cc ne).2 - i) ∧
        i ≤ (capGo maxChars rest i cc ne).2 ∧
        (capGo maxChars rest i cc ne).2 ≤ i + rest.length := by
  intro rest
  induction rest with
  | nil => intro i cc ne; simp [capGo]
  | cons l rest ih =>
    intro i cc ne
    by_cases hc : maxChars < cc + (renderLine (i + 1) (⟨StrUtil.rstripCR l.data⟩ : String)
        ++ "\n").length ∧ ne = true
    · simp only [capGo, if_pos hc]
      simp
    · obtain ⟨ih1, ih2, ih3⟩ := ih (i + 1)
        (cc + (renderLine (i + 1) (⟨StrUtil.rstripCR l.data⟩ : String) ++ "\n").length) true
      simp only [capGo, if_neg hc]
      refine ⟨?_, by omega, by simp only [List.length_cons]; omega⟩
      simp only [List.map_cons, ih1]
      have hsub : (capGo maxChars rest (i + 1)
          (cc + (renderLine (i + 1) (⟨StrUtil.rstripCR l.data⟩ : String) ++ "\n").length)
          true).2 - i
          = ((capGo maxChars rest (i + 1)
              (cc + (renderLine (i + 1) (⟨StrUtil.rstripCR l.data⟩ : String) ++ "\n").length)
              true).2 - (i + 1)) + 1 := by omega
      rw [hsub, range'_cons_of]

/-- With an empty accumulator the loop always emits the first line. -/
theorem capGo_progress (maxChars : Nat) (l : String) (rest : List String) (i cc : Nat) :
    i + 1 ≤ (capGo maxChars (l :: rest) i cc false).2 := by
  have hc : ¬ (maxChars < cc + (renderLine (i + 1) (⟨StrUtil.rstripCR l.data⟩ : String)
      ++ "\n").length ∧ (false : Bool) = true) := by simp
  simp only [capGo, if_neg hc]
  exact (capGo_spec maxChars rest (i + 1) _ true).2.1

/-- A successful second page of the capped loop: when the first page
stopped at index `e < total`, reading again from `e` yields a non-empty
consecutive slice starting at line `e + 1`. -/
theorem capGo_second_page (L : List String) (e : Nat) (hlt : e < L.length) :
    (capGo 30000 (L.drop e) e 0 false).1.map Prod.fst
        = List.range' (e + 1) ((capGo 30000 (L.drop e) e 0 false).2 - e) ∧
      1 ≤ (capGo 30000 (L.drop e) e 0 false).2 - e := by
  obtain ⟨x, xs, hxx⟩ : ∃ x xs, L.drop e = x :: xs := by
    cases hd : L.drop e with
    | nil =>
      exfalso
      have := List.drop_eq_nil_iff.mp hd
      omega
    | cons x xs => exact ⟨x, xs, rfl⟩
  refine ⟨(capGo_spec 30000 (L.drop e) e 0 false).1, ?_⟩
  have := capGo_progress 30000 x xs e 0
  rw [hxx]
  omega

end IdeServer

/-- C9: whenever `read_file` reports `has_more = true`, the advertised
`next_offset` is a valid 1-based line number at most `total_lines`
(hence at most `total_lines + 1`); the call's numbered lines are the
consecutive range from `start_line` up to `next_offset - 1`, and
re-reading the unchanged content from `start_line = next_offset` yields
a non-empty consecutive slice beginning exactly at `next_offset` — no
overlap and no gap. -/
theorem c9_pagination (content : String) (startLine : Nat) (endLine? : Option Nat)
    (h1 : 1 ≤ startLine)
    (h : (IdeServer.readFileCore content startLine endLine?).hasMore = true) :
    ∃ k m,
      (IdeServer.readFileCore content startLine endLine?).nextOffset = some k ∧
        k ≤ (IdeServer.readFileCore content startLine endLine?).totalLines + 1 ∧
        ((IdeServer.readFileCore content startLine endLine?).lines.map Prod.fst)
          = List.range' startLine (k - startLine) ∧
        ((IdeServer.readFileCore content k none).lines.map Prod.fst) = List.range' k m ∧
        1 ≤ m := by
  rcases endLine? with _ | e
  · simp only [IdeServer.readFileCore] at h ⊢
    set L := StrUtil.strSplitNl content with hL
    set r := IdeServer.capGo 30000 (L.drop (startLine - 1)) (startLine - 1) 0 false with hr
    obtain ⟨hmap, hlo, hhi⟩ :=
      IdeServer.capGo_spec 30000 (L.drop (startLine - 1)) (startLine - 1) 0 false
    rw [← hr] at hmap hlo hhi
    have hlt : r.2 < L.length := by
      by_contra hcon
      simp [← hr, decide_eq_true_eq, hcon] at h
    have hd : decide (r.2 < L.length) = true := decide_eq_true hlt
    refine ⟨r.2 + 1, (IdeServer.capGo 30000 (L.drop r.2) r.2 0 false).2 - r.2, ?_, ?_, ?_, ?_, ?_⟩
    · simp [← hr, hd]
    · omega
    · rw [hmap]
      have e1 : startLine - 1 + 1 = startLine := by omega
      have e2 : r.2 - (startLine - 1) = r.2 + 1 - startLine := by omega
      rw [e1, e2]
    · obtain ⟨hm2, _⟩ := IdeServer.capGo_second_page L r.2 hlt
      simp only [IdeServer.readFileCore, Nat.add_sub_cancel, ← hL]
      exact hm2
    · obtain ⟨_, hm1⟩ := IdeServer.capGo_second_page L r.2 hlt
      exact hm1
  · simp only [IdeServer.readFileCore] at h ⊢
    set L := StrUtil.strSplitNl content with hL
    have hlt : min e L.length < L.length := by
      by_contra hcon
      simp [decide_eq_true_eq, hcon] at h
    have hd : decide (min e L.length < L.length) = true := decide_eq_true hlt
    refine ⟨min e L.length + 1,
      (IdeServer.capGo 30000 (L.drop (min e L.length)) (min e L.length) 0 false).2
        - min e L.length, ?_, ?_, ?_, ?_, ?_⟩
    · rw [hd]
      simp
    · omega
    · rw [List.map_map]
      have hid : (Prod.fst ∘ fun n =>
          (n, (⟨StrUtil.rstripCR ((L.get? (n - 1)).getD "").data⟩ : String))) = id := by
        funext n; rfl
      rw [hid, List.map_id]
      have e1 : startLine - 1 + 1 = startLine := by omega
      have e2 : min e L.length - (startLine - 1) = min e L.length + 1 - startLine := by omega
      rw [e1, e2]
    · obtain ⟨hm2, _⟩ := IdeServer.capGo_second_page L (min e L.length) hlt
      simp only [IdeServer.readFileCore, Nat.add_sub_cancel, ← hL]
      exact hm2
    · obtain ⟨_, hm1⟩ := IdeServer.capGo_second_page L (min e L.length) hlt
      exact hm1

/-- C9, witness: a three-line file read with `start_line=1, end_line=1`
reports `has_more` and `next_offset = 2`; the theorem instantiates to
the continuation slice `[2, 3]`. -/
theorem c9_pagination_witness :
    (1 ≤ 1 ∧ (IdeServer.readFileCore "a\nb\nc" 1 (some 1)).hasMore = true) ∧
      (∃ k m,
        (IdeServer.readFileCore "a\nb\nc" 1 (some 1)).nextOffset = some k ∧
          k ≤ (IdeServer.readFileCore "a\nb\nc" 1 (some 1)).totalLines + 1 ∧
          ((IdeServer.readFileCore "a\nb\nc" 1 (some 1)).lines.map Prod.fst)
            = List.range' 1 (k - 1) ∧
          ((IdeServer.readFileCore "a\nb\nc" k none).lines.map Prod.fst) = List.range' k m ∧
          1 ≤ m) :=
  ⟨⟨by decide, by decide⟩, c9_pagination "a\nb\nc" 1 (some 1) (by decide) (by decide)⟩

namespace IdeServer

theorem toolWriteFile_symIndex (st : ExecState) (ws p c : String) :
    (toolWriteFile st ws p c).2.symIndex = st.symIndex := rfl

theorem toolEditFile_symIndex (st : ExecState) (ws p old new : String)
    (sl el : Option Nat) (nci : String) :
    (toolEditFile st ws p old new sl el nci).2.symIndex = st.symIndex := by
  cases hfs : st.fs (osPathJoin ws p) <;>
    rcases sl with _ | s <;> rcases el with _ | e <;>
      simp only [toolEditFile, hfs] <;> split_ifs <;> rfl

/-- Once a path's symbol-index entry is populated, no executor operation
replaces it: `read_file` only writes under the guard
`file_path not in self.symbol_index`, and the write/edit tools never
touch the index. -/
theorem execRun_symIndex_preserved (extract : String → String) (ws : String) :
    ∀ (ops : List ExecOp) (st : ExecState) (p v : String),
      st.symIndex p = some v →
      (execRun extract ws st ops).symIndex p = some v := by
  intro ops
  induction ops with
  | nil =>
    intro st p v h
    simpa [execRun] using h
  | cons op rest ih =>
    intro st p v h
    rw [execRun]
    apply ih
    cases op with
    | readF q s e =>
      simp only [execStep, toolReadFile]
      cases hfs : st.fs (osPathJoin ws q)
      · simpa using h
      · by_cases hq : st.symIndex q = none
        · have hpq : p ≠ q := by
            intro he
            rw [he] at h
            rw [hq] at h
            exact Option.noConfusion h
          simp [hq, hpq, h]
        · simpa [hq] using h
    | writeF q c =>
      simpa [execStep, toolWriteFile_symIndex] using h
    | editTextF q o n =>
      simpa [execStep, toolEditFile_symIndex] using h

end IdeServer

/-- C10: a `read_file` on a path whose symbol-index slot is empty caches
the symbols extracted from the content read at that moment, and no later
sequence of `read_file` / `write_file` / `edit_file` executions replaces
or invalidates that entry — in particular edits that change the file
leave the cached symbols (and hence the symbol summary built from the
index) reflecting the content as of the first read. -/
theorem c10_symbol_cache_stable (extract : String → String) (ws : String)
    (st : IdeServer.ExecState) (p c0 : String) (startLine : Nat) (endLine? : Option Nat)
    (ops : List IdeServer.ExecOp)
    (hidx : st.symIndex p = none)
    (hfs : st.fs (IdeServer.osPathJoin ws p) = some c0) :
    (IdeServer.execStep extract ws st (.readF p startLine endLine?)).symIndex p
        = some (extract c0) ∧
      (IdeServer.execRun extract ws
          (IdeServer.execStep extract ws st (.readF p startLine endLine?)) ops).symIndex p
        = some (extract c0) := by
  have h1 : (IdeServer.execStep extract ws st (.readF p startLine endLine?)).symIndex p
      = some (extract c0) := by
    simp [IdeServer.execStep, IdeServer.toolReadFile, hfs, hidx]
  exact ⟨h1, IdeServer.execRun_symIndex_preserved extract ws ops _ p _ h1⟩

/-- C10, witness: read `a.py`, then overwrite it; the cached symbols
still come from the original content. -/
theorem c10_symbol_cache_stable_witness :
    ((fun _ => none : String → Option String) "a.py" = none ∧
      (fun q => if q = "/ws/a.py" then some "def old(): pass" else none : CodeTools.Fs)
          (IdeServer.osPathJoin "/ws" "a.py") = some "def old(): pass") ∧
      ((IdeServer.execStep (fun s => s) "/ws"
            ⟨fun q => if q = "/ws/a.py" then some "def old(): pass" else none, [], fun _ => none⟩
            (.readF "a.py" 1 none)).symIndex "a.py" = some "def old(): pass" ∧
        (IdeServer.execRun (fun s => s) "/ws"
            (IdeServer.execStep (fun s => s) "/ws"
              ⟨fun q => if q = "/ws/a.py" then some "def old(): pass" else none, [], fun _ => none⟩
              (.readF "a.py" 1 none))
            [.writeF "a.py" "def new(): pass"]).symIndex "a.py" = some "def old(): pass") :=
  ⟨⟨rfl, by decide⟩,
    c10_symbol_cache_stable (fun s => s) "/ws"
      ⟨fun q => if q = "/ws/a.py" then some "def old(): pass" else none, [], fun _ => none⟩
      "a.py" "def old(): pass" 1 none [.writeF "a.py" "def new(): pass"]
      rfl (by decide)⟩

namespace CodeTools

theorem commitRun_cons_fst (fs : Fs) (c : FileChange) (rest : List FileChange) :
    (commitRun fs (c :: rest)).1
      = ((applyChange fs c).1 && (commitRun (applyChange fs c).2 rest).1) := rfl

theorem commitRun_cons_snd (fs : Fs) (c : FileChange) (rest : List FileChange) :
    (commitRun fs (c :: rest)).2 = (commitRun (applyChange fs c).2 rest).2 := rfl

theorem undoRun_cons (fs : Fs) (c : FileChange) (rest : List FileChange) :
    undoRun fs (c :: rest) = (revertChange (undoRun fs rest) c).2 := rfl

theorem stageTx_cons (s0 : Fs) (op : EditorOp) (rest : List EditorOp) :
    stageTx s0 (op :: rest) = stageChange s0 op :: stageTx s0 rest := rfl

/-- Applying a non-rename change leaves every other path alone. -/
theorem applyChange_snd_other (fs : Fs) (c : FileChange) (q : String)
    (hop : c.operation ≠ .rename) (hq : q ≠ c.filePath) :
    (applyChange fs c).2 q = fs q := by
  cases hcop : c.operation with
  | rename => exact absurd hcop hop
  | create =>
    cases hnc : c.newContent <;>
      simp [applyChange, hcop, hnc, writeFileOp, Fs.update, hq]
  | modify =>
    cases hnc : c.newContent <;>
      simp [applyChange, hcop, hnc, writeFileOp, Fs.update, hq]
  | delete =>
    cases hfs : fs c.filePath <;>
      simp [applyChange, hcop, deleteFileOp, hfs, Fs.update, hq]

/-- Reverting a non-rename change leaves every other path alone. -/
theorem revertChange_snd_other (fs : Fs) (c : FileChange) (q : String)
    (hop : c.operation ≠ .rename) (hq : q ≠ c.filePath) :
    (revertChange fs c).2 q = fs q := by
  cases hcop : c.operation with
  | rename => exact absurd hcop hop
  | create =>
    cases hfs : fs c.filePath <;>
      simp [revertChange, hcop, deleteFileOp, hfs, Fs.update, hq]
  | modify =>
    cases hoc : c.oldContent <;>
      simp [revertChange, hcop, hoc, writeFileOp, Fs.update, hq]
  | delete =>
    cases hoc : c.oldContent <;>
      simp [revertChange, hcop, hoc, writeFileOp, Fs.update, hq]

/-- A setter change's revert writes `v` at its path whatever the state. -/
theorem revertChange_sets (fs : Fs) (c : FileChange) (v : Option String)
    (h : setterTo c v) : (revertChange fs c).2 c.filePath = v := by
  rcases h with ⟨hop, hv⟩ | ⟨hop, o, ho, hv⟩
  · subst hv
    cases hfs : fs c.filePath <;>
      simp [revertChange, hop, deleteFileOp, hfs, Fs.update]
  · subst hv
    rcases hop with hop | hop <;>
      simp [revertChange, hop, ho, writeFileOp, Fs.update]

/-- A commit whose changes all avoid `q` (and contain no rename) leaves
`q` untouched. -/
theorem commitRun_snd_other (q : String) :
    ∀ (cs : List FileChange) (fs : Fs),
      (∀ c ∈ cs, c.operation ≠ .rename ∧ c.filePath ≠ q) →
      (commitRun fs cs).2 q = fs q := by
  intro cs
  induction cs with
  | nil => intro fs _; rfl
  | cons c rest ih =>
    intro fs h
    obtain ⟨h1, h2⟩ := h c (List.mem_cons_self _ _)
    rw [commitRun_cons_snd,
      ih (applyChange fs c).2 (fun c' hc' => h c' (List.mem_cons_of_mem _ hc')),
      applyChange_snd_other fs c q h1 (Ne.symm h2)]

/-- Staged non-rename changes never carry the rename operation. -/
theorem stageChange_op_ne_rename (s0 : Fs) (op : EditorOp) (h : op.isRen = false) :
    (stageChange s0 op).operation ≠ .rename := by
  rcases op with ⟨p, cc⟩ | ⟨p, o, n⟩ | ⟨p⟩ | ⟨a, b⟩
  · cases hsp : s0 p <;> simp [stageChange, hsp]
  · cases hsp : s0 p <;> simp [stageChange, hsp] <;> split_ifs <;> simp
  · simp [stageChange]
  · simp [EditorOp.isRen] at h

/-- A staged change's recorded `old_content` is the pre-commit content
of its path. -/
theorem stageChange_oldContent_eq (s0 : Fs) (op : EditorOp) (o : String)
    (h : (stageChange s0 op).oldContent = some o) :
    s0 (stageChange s0 op).filePath = some o := by
  rcases op with ⟨p, cc⟩ | ⟨p, ox, n⟩ | ⟨p⟩ | ⟨a, b⟩
  · cases hsp : s0 p <;> simp [stageChange, hsp] at h ⊢ <;> simp [h]
  · cases hsp : s0 p <;> simp [stageChange, hsp] at h ⊢
    · split_ifs at h ⊢ <;> simp_all
  · simpa [stageChange] using h
  · simp [stageChange] at h

/-- A staged `CREATE` records a path absent in the pre-commit state. -/
theorem stageChange_create_none (s0 : Fs) (op : EditorOp)
    (h : (stageChange s0 op).operation = .create) :
    s0 (stageChange s0 op).filePath = none := by
  rcases op with ⟨p, cc⟩ | ⟨p, ox, n⟩ | ⟨p⟩ | ⟨a, b⟩
  · cases hsp : s0 p <;> simp [stageChange, hsp] at h ⊢
  · cases hsp : s0 p <;> simp [stageChange, hsp] at h ⊢
    split_ifs at h <;> simp_all
  · simp [stageChange] at h
  · simp [stageChange] at h

/-- For a successfully committed rename-free transaction, the first
staged change on any path `q` reverts by setting `q` back to the
pre-commit content. -/
theorem firstOn_setter (s0 : Fs) (q : String) :
    ∀ (ops : List EditorOp) (fs : Fs),
      (∀ op ∈ ops, op.isRen = false) →
      (commitRun fs (stageTx s0 ops)).1 = true →
      fs q = s0 q →
      ∀ c, (stageTx s0 ops).find? (fun c => c.filePath = q) = some c →
        setterTo c (s0 q) := by
  intro ops
  induction ops with
  | nil => intro fs _ _ _ c hc; simp [stageTx] at hc
  | cons op rest ih =>
    intro fs hnr hcm hfsq c hc
    have hnr0 := hnr op (List.mem_cons_self _ _)
    have hnrrest : ∀ o ∈ rest, EditorOp.isRen o = false :=
      fun o ho => hnr o (List.mem_cons_of_mem _ ho)
    rw [stageTx_cons] at hc
    rw [stageTx_cons, commitRun_cons_fst] at hcm
    obtain ⟨hap, hcm'⟩ := Bool.and_eq_true_iff.mp hcm
    by_cases hpq : (stageChange s0 op).filePath = q
    · rw [List.find?_cons_of_pos _ (by simp [hpq])] at hc
      obtain rfl : stageChange s0 op = c := by injection hc
      rcases op with ⟨p, cc⟩ | ⟨p, ox, n⟩ | ⟨p⟩ | ⟨a, b⟩
      · cases hsp : s0 p with
        | none =>
          left
          have hfp : (stageChange s0 (EditorOp.write p cc)).filePath = p := by
            simp [stageChange, hsp]
          refine ⟨by simp [stageChange, hsp], ?_⟩
          rw [← hpq, hfp, hsp]
        | some old =>
          right
          have hfp : (stageChange s0 (EditorOp.write p cc)).filePath = p := by
            simp [stageChange, hsp]
          refine ⟨by simp [stageChange, hsp], old, by simp [stageChange, hsp], ?_⟩
          rw [← hpq, hfp, hsp]
      · cases hsp : s0 p with
        | none =>
          exfalso
          have : (applyChange fs (stageChange s0 (EditorOp.edit p ox n))).1 = false := by
            simp [stageChange, hsp, applyChange]
          rw [this] at hap
          exact Bool.noConfusion hap
        | some content =>
          right
          have hshape : (stageChange s0 (EditorOp.edit p ox n)).operation = .modify ∧
              (stageChange s0 (EditorOp.edit p ox n)).oldContent = some content ∧
              (stageChange s0 (EditorOp.edit p ox n)).filePath = p := by
            simp [stageChange, hsp]
            split_ifs <;> simp
          refine ⟨Or.inl hshape.1, content, hshape.2.1, ?_⟩
          rw [← hpq, hshape.2.2, hsp]
      · cases hsp : s0 p with
        | none =>
          exfalso
          have hfsp : fs p = none := by
            have hfp : (stageChange s0 (EditorOp.del p)).filePath = p := by
              simp [stageChange]
            rw [← hfp, hpq, hfsq, ← hpq, hfp, hsp]
          have : (applyChange fs (stageChange s0 (EditorOp.del p))).1 = false := by
            simp [stageChange, applyChange, deleteFileOp, hfsp]
          rw [this] at hap
          exact Bool.noConfusion hap
        | some o =>
          right
          refine ⟨Or.inr (by simp [stageChange]), o, by simp [stageChange, hsp], ?_⟩
          have hfp : (stageChange s0 (EditorOp.del p)).filePath = p := by
            simp [stageChange]
          rw [← hpq, hfp, hsp]
      · simp [EditorOp.isRen] at hnr0
    · rw [List.find?_cons_of_neg _ (by simp [hpq])] at hc
      refine ih (applyChange fs (stageChange s0 op)).2 hnrrest hcm' ?_ c hc
      rw [applyChange_snd_other fs _ q (stageChange_op_ne_rename s0 op hnr0)
        (fun he => hpq he.symm)]
      exact hfsq

/-- Undoing a rename-free change list whose first change on `q` is a
setter to the pre-commit content: the value at `q` becomes that content
when some change touches `q`, and is untouched otherwise. -/
theorem undoRun_value (s0 : Fs) (q : String) :
    ∀ (cs : List FileChange) (fs : Fs),
      (∀ c ∈ cs, c.operation ≠ .rename) →
      (∀ c, cs.find? (fun c => c.filePath = q) = some c → setterTo c (s0 q)) →
      undoRun fs cs q
        = (match cs.find? (fun c => c.filePath = q) with
           | some _ => s0 q
           | none => fs q) := by
  intro cs
  induction cs with
  | nil => intro fs _ _; simp [undoRun]
  | cons c rest ih =>
    intro fs hnr hfirst
    rw [undoRun_cons]
    by_cases hpq : c.filePath = q
    · have hfd : (c :: rest).find? (fun c => c.filePath = q) = some c :=
        List.find?_cons_of_pos _ (by simp [hpq])
      rw [hfd]
      have := revertChange_sets (undoRun fs rest) c _ (hfirst c hfd)
      rwa [hpq] at this
    · have hfd : (c :: rest).find? (fun c => c.filePath = q)
          = rest.find? (fun c => c.filePath = q) :=
        List.find?_cons_of_neg _ (by simp [hpq])
      rw [hfd,
        revertChange_snd_other _ c q (hnr c (List.mem_cons_self _ _))
          (fun he => hpq he.symm)]
      exact ih fs (fun c' h' => hnr c' (List.mem_cons_of_mem _ h'))
        (fun c' h' => hfirst c' (by rw [hfd]; exact h'))

end CodeTools

/-- C4, counterexample: for the committed transaction
`[create A, rename A→B, rename C→A, modify C]` staged against the
pre-state `{C ↦ "a"}`, the commit succeeds, but undo-then-redo does
**not** restore the post-commit state: post-commit `A` holds `"a"`
(renamed over from `C`), while after undo (whose rename reverts fail
silently) and redo, `A` holds `"c"`. -/
theorem c4_counterexample :
    (CodeTools.commitRun CodeTools.c4s0 (CodeTools.stageTx CodeTools.c4s0 CodeTools.c4ops)).1
        = true ∧
      (CodeTools.commitRun CodeTools.c4s0
          (CodeTools.stageTx CodeTools.c4s0 CodeTools.c4ops)).2 "A" = some "a" ∧
      CodeTools.redoRun
          (CodeTools.undoRun
            (CodeTools.commitRun CodeTools.c4s0
              (CodeTools.stageTx CodeTools.c4s0 CodeTools.c4ops)).2
            (CodeTools.stageTx CodeTools.c4s0 CodeTools.c4ops))
          (CodeTools.stageTx CodeTools.c4s0 CodeTools.c4ops) "A" = some "c" ∧
      CodeTools.redoRun
          (CodeTools.undoRun
            (CodeTools.commitRun CodeTools.c4s0
              (CodeTools.stageTx CodeTools.c4s0 CodeTools.c4ops)).2
            (CodeTools.stageTx CodeTools.c4s0 CodeTools.c4ops))
          (CodeTools.stageTx CodeTools.c4s0 CodeTools.c4ops) "A"
        ≠ (CodeTools.commitRun CodeTools.c4s0
            (CodeTools.stageTx CodeTools.c4s0 CodeTools.c4ops)).2 "A" := by
  refine ⟨by decide, by decide, by decide, by decide⟩

/-- C4, amended: for every committed **rename-free** transaction (any
ordered mix of create, modify and delete changes staged against the
pre-commit state), undo restores the workspace byte-for-byte to the
pre-commit state — in particular every modified or deleted file then
contains exactly its recorded `old_content` and every created file is
absent — and redo restores the post-commit state byte-for-byte.
(Transactions whose renames alias paths with other changes break both
guarantees, as the counterexample shows.) -/
theorem c4_amended (s0 : CodeTools.Fs) (ops : List CodeTools.EditorOp)
    (hnr : ∀ op ∈ ops, op.isRen = false)
    (hc : (CodeTools.commitRun s0 (CodeTools.stageTx s0 ops)).1 = true) :
    CodeTools.undoRun (CodeTools.commitRun s0 (CodeTools.stageTx s0 ops)).2
        (CodeTools.stageTx s0 ops) = s0 ∧
      CodeTools.redoRun
          (CodeTools.undoRun (CodeTools.commitRun s0 (CodeTools.stageTx s0 ops)).2
            (CodeTools.stageTx s0 ops))
          (CodeTools.stageTx s0 ops)
        = (CodeTools.commitRun s0 (CodeTools.stageTx s0 ops)).2 ∧
      (∀ c ∈ CodeTools.stageTx s0 ops,
        (c.operation = .modify ∨ c.operation = .delete) →
        ∀ o, c.oldContent = some o →
          CodeTools.undoRun (CodeTools.commitRun s0 (CodeTools.stageTx s0 ops)).2
            (CodeTools.stageTx s0 ops) c.filePath = some o) ∧
      (∀ c ∈ CodeTools.stageTx s0 ops, c.operation = .create →
        CodeTools.undoRun (CodeTools.commitRun s0 (CodeTools.stageTx s0 ops)).2
          (CodeTools.stageTx s0 ops) c.filePath = none) := by
  have hnrc : ∀ c ∈ CodeTools.stageTx s0 ops, c.operation ≠ .rename := by
    intro c hcmem
    obtain ⟨op, hop, rfl⟩ := List.mem_map.mp hcmem
    exact CodeTools.stageChange_op_ne_rename s0 op (hnr op hop)
  have hundo : CodeTools.undoRun (CodeTools.commitRun s0 (CodeTools.stageTx s0 ops)).2
      (CodeTools.stageTx s0 ops) = s0 := by
    funext q
    rw [CodeTools.undoRun_value s0 q (CodeTools.stageTx s0 ops) _ hnrc
      (CodeTools.firstOn_setter s0 q ops s0 hnr hc rfl)]
    cases hfd : (CodeTools.stageTx s0 ops).find? (fun c => c.filePath = q) with
    | none =>
      simp only []
      refine CodeTools.commitRun_snd_other q (CodeTools.stageTx s0 ops) s0 ?_
      intro c hcmem
      have := List.find?_eq_none.mp hfd c hcmem
      exact ⟨hnrc c hcmem, by simpa using this⟩
    | some c => simp only []
  refine ⟨hundo, ?_, ?_, ?_⟩
  · rw [hundo, ← CodeTools.commitRun_snd_eq_redoRun]
  · intro c hcmem hop o ho
    rw [hundo]
    obtain ⟨op, hopmem, rfl⟩ := List.mem_map.mp hcmem
    exact CodeTools.stageChange_oldContent_eq s0 op o ho
  · intro c hcmem hop
    rw [hundo]
    obtain ⟨op, hopmem, rfl⟩ := List.mem_map.mp hcmem
    exact CodeTools.stageChange_create_none s0 op hop

/-- C4, witness: the amended statement evaluated at the single-change
transaction `write a.txt "1"` from the empty workspace. -/
theorem c4_amended_witness :
    ((∀ op ∈ ([.write "a.txt" "1"] : List CodeTools.EditorOp), op.isRen = false) ∧
      (CodeTools.commitRun CodeTools.Fs.empty
          (CodeTools.stageTx CodeTools.Fs.empty [.write "a.txt" "1"])).1 = true) ∧
      (CodeTools.undoRun
            (CodeTools.commitRun CodeTools.Fs.empty
              (CodeTools.stageTx CodeTools.Fs.empty [.write "a.txt" "1"])).2
            (CodeTools.stageTx CodeTools.Fs.empty [.write "a.txt" "1"])
          = CodeTools.Fs.empty ∧
        CodeTools.redoRun
            (CodeTools.undoRun
              (CodeTools.commitRun CodeTools.Fs.empty
                (CodeTools.stageTx CodeTools.Fs.empty [.write "a.txt" "1"])).2
              (CodeTools.stageTx CodeTools.Fs.empty [.write "a.txt" "1"]))
            (CodeTools.stageTx CodeTools.Fs.empty [.write "a.txt" "1"])
          = (CodeTools.commitRun CodeTools.Fs.empty
              (CodeTools.stageTx CodeTools.Fs.empty [.write "a.txt" "1"])).2 ∧
        (∀ c ∈ CodeTools.stageTx CodeTools.Fs.empty [.write "a.txt" "1"],
          (c.operation = .modify ∨ c.operation = .delete) →
          ∀ o, c.oldContent = some o →
            CodeTools.undoRun
              (CodeTools.commitRun CodeTools.Fs.empty
                (CodeTools.stageTx CodeTools.Fs.empty [.write "a.txt" "1"])).2
              (CodeTools.stageTx CodeTools.Fs.empty [.write "a.txt" "1"]) c.filePath
              = some o) ∧
        (∀ c ∈ CodeTools.stageTx CodeTools.Fs.empty [.write "a.txt" "1"],
          c.operation = .create →
          CodeTools.undoRun
            (CodeTools.commitRun CodeTools.Fs.empty
              (CodeTools.stageTx CodeTools.Fs.empty [.write "a.txt" "1"])).2
            (CodeTools.stageTx CodeTools.Fs.empty [.write "a.txt" "1"]) c.filePath
            = none)) :=
  ⟨⟨by decide, by decide⟩,
    c4_amended CodeTools.Fs.empty [.write "a.txt" "1"] (by decide) (by decide)⟩

namespace StrUtil

theorem findSubL_some_le (n : List Char) :
    ∀ (l : List Char) (i : Nat), findSubL n l = some i → i + n.length ≤ l.length := by
  intro l
  induction l with
  | nil =>
    intro i h
    by_cases hn : n = []
    · simp [findSubL, hn] at h
      simp [h.symm, hn]
    · simp [findSubL, hn] at h
  | cons c t ih =>
    intro i h
    by_cases hp : n.isPrefixOf (c :: t)
    · simp only [findSubL, if_pos hp, Option.some.injEq] at h
      have := (List.isPrefixOf_iff_prefix.mp hp).length_le
      simp only [← h, Nat.zero_add, List.length_cons]
      simpa using this
    · simp only [findSubL, if_neg hp, Option.map_eq_some'] at h
      obtain ⟨j, hj, rfl⟩ := h
      have := ih j hj
      simp only [List.length_cons]
      omega

theorem take_append_le {α : Type} (l e : List α) (n : Nat) (h : n ≤ l.length) :
    (l ++ e).take n = l.take n := by
  rw [List.take_append_eq_append_take, Nat.sub_eq_zero_of_le h, List.take_zero,
    List.append_nil]

theorem drop_append_le {α : Type} (l e : List α) (n : Nat) (h : n ≤ l.length) :
    (l ++ e).drop n = l.drop n ++ e := by
  rw [List.drop_append_eq_append_drop, Nat.sub_eq_zero_of_le h, List.drop_zero]

theorem prefix_of_append_of_le {α : Type} [DecidableEq α] (n l e : List α)
    (h : n <+: l ++ e) (hle : n.length ≤ l.length) : n <+: l := by
  rw [List.prefix_iff_eq_take] at h ⊢
  rwa [take_append_le l e n.length hle] at h

theorem findSubL_append_some (n : List Char) :
    ∀ (l : List Char) (e : List Char) (i : Nat),
      findSubL n l = some i → findSubL n (l ++ e) = some i := by
  intro l
  induction l with
  | nil =>
    intro e i h
    by_cases hn : n = []
    · subst hn
      simp [findSubL] at h
      subst h
      cases e <;> simp [findSubL, List.isPrefixOf]
    · simp [findSubL, hn] at h
  | cons c t ih =>
    intro e i h
    by_cases hp : n.isPrefixOf (c :: t)
    · simp only [findSubL, if_pos hp, Option.some.injEq] at h
      have hp2 : n.isPrefixOf (c :: (t ++ e)) = true := by
        rw [List.isPrefixOf_iff_prefix] at hp ⊢
        have : (c :: t) <+: (c :: t) ++ e := List.prefix_append _ _
        exact hp.trans (by simpa using this)
      have hgoal : (c :: t) ++ e = c :: (t ++ e) := rfl
      rw [hgoal]
      simp only [findSubL, if_pos hp2, ← h]
    · simp only [findSubL, if_neg hp, Option.map_eq_some'] at h
      obtain ⟨j, hj, rfl⟩ := h
      have hbound := findSubL_some_le n t j hj
      have hp2 : ¬ n.isPrefixOf (c :: (t ++ e)) = true := by
        intro hcon
        apply hp
        rw [List.isPrefixOf_iff_prefix] at hcon ⊢
        have hle : n.length ≤ (c :: t).length := by
          simp only [List.length_cons]
          omega
        have : (c :: t) ++ e = c :: (t ++ e) := rfl
        rw [← this] at hcon
        exact prefix_of_append_of_le n (c :: t) e hcon hle
      have hgoal : (c :: t) ++ e = c :: (t ++ e) := rfl
      rw [hgoal]
      simp only [findSubL, if_neg hp2, Option.map_eq_some']
      exact ⟨j, ih e j hj, rfl⟩

/-- A needle whose head character never occurs in the haystack does not
occur at all. -/
theorem findSubL_none_of_head_notin (hd : Char) (ns : List Char) :
    ∀ (x : List Char), hd ∉ x → findSubL (hd :: ns) x = none := by
  intro x
  induction x with
  | nil => simp [findSubL]
  | cons c t ih =>
    intro hx
    have hc : ¬ (hd = c) := fun he => hx (he ▸ List.mem_cons_self _ _)
    have hnp : ¬ (hd :: ns).isPrefixOf (c :: t) = true := by
      simp only [List.isPrefixOf, Bool.and_eq_true, beq_iff_eq]
      intro hcon
      exact hc hcon.1
    simp [findSubL, hnp, ih (fun hm => hx (List.mem_cons_of_mem _ hm))]

/-- Position of the needle after a head-character-free prefix. -/
theorem findSubL_after_clean (hd : Char) (ns : List Char) :
    ∀ (x y : List Char), hd ∉ x →
      findSubL (hd :: ns) (x ++ ((hd :: ns) ++ y)) = some x.length := by
  intro x
  induction x with
  | nil =>
    intro y _
    have hp : (hd :: ns).isPrefixOf ((hd :: ns) ++ y) = true := by
      rw [List.isPrefixOf_iff_prefix]
      exact List.prefix_append _ _
    have : ([] : List Char) ++ ((hd :: ns) ++ y) = hd :: (ns ++ y) := rfl
    rw [this]
    have hp2 : (hd :: ns).isPrefixOf (hd :: (ns ++ y)) = true := by simpa using hp
    simp [findSubL, hp2]
  | cons c t ih =>
    intro y hx
    have hc : ¬ (hd = c) := fun he => hx (he ▸ List.mem_cons_self _ _)
    have hnp : ¬ (hd :: ns).isPrefixOf (c :: (t ++ ((hd :: ns) ++ y))) = true := by
      simp only [List.isPrefixOf, Bool.and_eq_true, beq_iff_eq]
      intro hcon
      exact hc hcon.1
    have hgoal : (c :: t) ++ ((hd :: ns) ++ y) = c :: (t ++ ((hd :: ns) ++ y)) := rfl
    rw [hgoal]
    simp only [findSubL, if_neg hnp]
    rw [ih y (fun hm => hx (List.mem_cons_of_mem _ hm))]
    simp

theorem containsSubL_length_le (hay n : List Char) (h : containsSubL hay n = true) :
    n.length ≤ hay.length := by
  simp only [containsSubL, Option.isSome_iff_exists] at h
  obtain ⟨i, hi⟩ := h
  have := findSubL_some_le n hay i hi
  omega

/-- A needle longer than the haystack never occurs. -/
theorem countSubAux_zero_of_short (n : List Char) :
    ∀ (l : List Char) (cd : Nat), l.length < n.length → countSubAux n l cd = 0 := by
  intro l
  induction l with
  | nil => intro cd _; rfl
  | cons c t ih =>
    intro cd hlen
    have hnp : ¬ n.isPrefixOf (c :: t) = true := by
      intro hp
      have := (List.isPrefixOf_iff_prefix.mp hp).length_le
      omega
    by_cases hcd : cd ≠ 0
    · simp only [countSubAux, if_pos hcd]
      exact ih (cd - 1) (by simp only [List.length_cons] at hlen; omega)
    · simp only [ne_eq, Decidable.not_not] at hcd
      subst hcd
      simp only [countSubAux, if_neg (by simp : ¬ ((0 : Nat) ≠ 0)), if_neg hnp]
      exact ih 0 (by simp only [List.length_cons] at hlen; omega)

/-- The non-overlapping occurrence count never shrinks when the input is
extended on the right. -/
theorem countSubAux_le_append (n : List Char) :
    ∀ (l : List Char) (e : List Char) (cd : Nat),
      countSubAux n l cd ≤ countSubAux n (l ++ e) cd := by
  intro l
  induction l with
  | nil => intro e cd; simp [countSubAux]
  | cons c t ih =>
    intro e cd
    have hgoal : (c :: t) ++ e = c :: (t ++ e) := rfl
    rw [hgoal]
    by_cases hcd : cd ≠ 0
    · simp only [countSubAux, if_pos hcd]
      exact ih e (cd - 1)
    · simp only [ne_eq, Decidable.not_not] at hcd
      subst hcd
      by_cases hp : n.isPrefixOf (c :: t)
      · have hp2 : n.isPrefixOf (c :: (t ++ e)) = true := by
          rw [List.isPrefixOf_iff_prefix] at hp ⊢
          have : (c :: t) <+: (c :: t) ++ e := List.prefix_append _ _
          exact hp.trans (by simpa using this)
        simp only [countSubAux, if_neg (by simp : ¬ ((0 : Nat) ≠ 0)), if_pos hp, if_pos hp2]
        have := ih e (n.length - 1)
        omega
      · by_cases hp2 : n.isPrefixOf (c :: (t ++ e)) = true
        · have hlen : (c :: t).length < n.length := by
            by_contra hcon
            apply hp
            rw [List.isPrefixOf_iff_prefix] at hp2 ⊢
            have hrw : (c :: t) ++ e = c :: (t ++ e) := rfl
            rw [← hrw] at hp2
            exact prefix_of_append_of_le n (c :: t) e hp2 (by omega)
          have hz : countSubAux n (c :: t) 0 = 0 :=
            countSubAux_zero_of_short n (c :: t) 0 hlen
          rw [hz]
          exact Nat.zero_le _
        · simp only [countSubAux, if_neg (by simp : ¬ ((0 : Nat) ≠ 0)), if_neg hp,
            if_neg hp2]
          exact ih e 0

theorem countSubL_le_append (n l e : List Char) :
    countSubL n l ≤ countSubL n (l ++ e) := by
  unfold countSubL
  have := countSubAux_le_append n l e 0
  omega

end StrUtil
namespace StrUtil

/-- If a needle starting with `c` occurs in `l`, then `c ∈ l`. -/
theorem mem_of_findSubL_cons (c : Char) (ns : List Char) :
    ∀ (l : List Char) (i : Nat), findSubL (c :: ns) l = some i → c ∈ l := by
  intro l
  induction l with
  | nil => intro i h; simp [findSubL] at h
  | cons d t ih =>
    intro i h
    by_cases hp : (c :: ns).isPrefixOf (d :: t) = true
    · rcases List.isPrefixOf_iff_prefix.mp hp with ⟨s, hs⟩
      injection hs with h1 _
      rw [h1]
      exact List.mem_cons_self _ _
    · simp only [findSubL, if_neg hp, Option.map_eq_some'] at h
      obtain ⟨j, hj, _⟩ := h
      exact List.mem_cons_of_mem _ (ih j hj)

end StrUtil

namespace IdeServer

/-- `[` is not a letter, so under `re.IGNORECASE` it matches only
itself. -/
theorem charCIEq_lbrack_eq_false (c : Char) (hc : ¬ c = '[') :
    charCIEq '[' c = false := by
  have h1 : ¬ ('[' = c) := fun h => hc h.symm
  have h2 : ('[' : Char).isAlpha = false := by decide
  simp [charCIEq, h1, h2]

/-- A successful literal strip is stable under extending the subject on
the right. -/
theorem stripLitCI_append :
    ∀ (p l e r : List Char), stripLitCI p l = some r →
      stripLitCI p (l ++ e) = some (r ++ e)
  | [], l, e, r, h => by
    simp only [stripLitCI, Option.some.injEq] at h
    simp [stripLitCI, h]
  | _ :: _, [], _, _, h => by simp [stripLitCI] at h
  | a :: as, c :: cs, e, r, h => by
    by_cases hce : charCIEq a c = true
    · simp only [stripLitCI, if_pos hce] at h
      have hg : (c :: cs) ++ e = c :: (cs ++ e) := rfl
      rw [hg]
      simp only [stripLitCI, if_pos hce]
      exact stripLitCI_append as cs e r h
    · simp [stripLitCI, hce] at h

/-- When a literal strip fails by running out of input yet succeeds on
an extension, every character of the original input case-matched some
pattern character. -/
theorem stripLitCI_covers :
    ∀ (p l e r : List Char), stripLitCI p l = none →
      stripLitCI p (l ++ e) = some r →
      ∀ c ∈ l, ∃ a ∈ p, charCIEq a c = true
  | [], l, _, _, h, _ => by simp [stripLitCI] at h
  | _ :: _, [], _, _, _, _ => by simp
  | a :: as, c :: cs, e, r, h, h2 => by
    by_cases hce : charCIEq a c = true
    · simp only [stripLitCI, if_pos hce] at h
      have hg : (c :: cs) ++ e = c :: (cs ++ e) := rfl
      rw [hg] at h2
      simp only [stripLitCI, if_pos hce] at h2
      intro d hd
      rcases List.mem_cons.mp hd with hdc | hdm
      · exact ⟨a, List.mem_cons_self _ _, by rw [hdc]; exact hce⟩
      · obtain ⟨b, hb, hbe⟩ := stripLitCI_covers as cs e r h h2 d hdm
        exact ⟨b, List.mem_cons_of_mem _ hb, hbe⟩
    · have hg : (c :: cs) ++ e = c :: (cs ++ e) := rfl
      rw [hg] at h2
      simp [stripLitCI, hce] at h2

/-- `takeWhile`/`dropWhile` ignore a right extension once the scan has
already stopped inside the original list. -/
theorem takeWhile_dropWhile_append (p : Char → Bool) :
    ∀ (l e : List Char), l.dropWhile p ≠ [] →
      (l ++ e).takeWhile p = l.takeWhile p ∧
      (l ++ e).dropWhile p = l.dropWhile p ++ e
  | [], _, h => absurd rfl h
  | c :: t, e, h => by
    by_cases hc : p c = true
    · simp only [List.dropWhile_cons, if_pos hc] at h
      have ih := takeWhile_dropWhile_append p t e h
      have hg : (c :: t) ++ e = c :: (t ++ e) := rfl
      rw [hg]
      constructor
      · simp only [List.takeWhile_cons, if_pos hc, ih.1]
      · simp only [List.dropWhile_cons, if_pos hc, ih.2]
    · have hg : (c :: t) ++ e = c :: (t ++ e) := rfl
      rw [hg]
      constructor
      · simp only [List.takeWhile_cons, if_neg hc]
      · simp only [List.dropWhile_cons, if_neg hc]
        exact hg.symm

/-- Dropping the matched `takeWhile` prefix is `dropWhile`. -/
theorem drop_takeWhile_length (p : Char → Bool) (l : List Char) :
    l.drop (l.takeWhile p).length = l.dropWhile p := by
  have h := List.drop_left (l.takeWhile p) (l.dropWhile p)
  rwa [List.takeWhile_append_dropWhile] at h

/-- A successful lazy-capture split is stable under extending the
subject: the capture is unchanged and the remainder absorbs the
extension. -/
theorem splitOnFirstL_append (n l e a b : List Char)
    (h : splitOnFirstL n l = some (a, b)) :
    splitOnFirstL n (l ++ e) = some (a, b ++ e) := by
  simp only [splitOnFirstL, Option.map_eq_some'] at h
  obtain ⟨i, hi, heq⟩ := h
  have hle := StrUtil.findSubL_some_le n l i hi
  simp only [Prod.mk.injEq] at heq
  simp only [splitOnFirstL, StrUtil.findSubL_append_some n l e i hi, Option.map_some',
    Option.some.injEq, Prod.mk.injEq]
  constructor
  · rw [StrUtil.take_append_le l e i (by omega), heq.1]
  · rw [StrUtil.drop_append_le l e (i + n.length) (by omega), heq.2]

end IdeServer
namespace IdeServer

/-- A match of the main tool-block pattern survives extending the input
on the right: same name and capture, the remainder absorbs the
extension. -/
theorem tryToolAt_append (l e : List Char) (m : RMatch)
    (h : tryToolAt l = some m) :
    tryToolAt (l ++ e) = some ⟨m.name, m.content, m.rest ++ e⟩ := by
  rcases hs1 : stripLitCI "[TOOL:".data l with _ | r1
  · simp [tryToolAt, hs1] at h
  simp only [tryToolAt, hs1] at h
  by_cases hname : r1.takeWhile isWordChar = []
  · simp [hname] at h
  rw [if_neg hname] at h
  rcases hd : r1.drop (r1.takeWhile isWordChar).length with _ | ⟨c, r2⟩
  · simp only [hd] at h
    simp at h
  simp only [hd] at h
  by_cases hc : c = ']'
  swap
  · simp [hc] at h
  simp only [if_pos hc] at h
  rcases h3 : stripLitCI "```".data (r2.dropWhile Char.isWhitespace) with _ | r4
  · simp only [h3] at h
    simp at h
  simp only [h3] at h
  have hs1A : stripLitCI "[TOOL:".data (l ++ e) = some (r1 ++ e) :=
    stripLitCI_append _ l e r1 hs1
  have hdw : r1.dropWhile isWordChar = c :: r2 := by
    rw [← drop_takeWhile_length]
    exact hd
  have hTW := takeWhile_dropWhile_append isWordChar r1 e (by rw [hdw]; simp)
  have hdA : (r1 ++ e).drop (r1.takeWhile isWordChar).length = c :: (r2 ++ e) := by
    rw [← hTW.1, drop_takeWhile_length, hTW.2, hdw]
    rfl
  have hr3ne : r2.dropWhile Char.isWhitespace ≠ [] := by
    intro hnil
    rw [hnil] at h3
    have hfence : "```".data = '`' :: "``".data := by decide
    rw [hfence] at h3
    simp [stripLitCI] at h3
  have hWS := takeWhile_dropWhile_append Char.isWhitespace r2 e hr3ne
  have h3A : stripLitCI "```".data ((r2 ++ e).dropWhile Char.isWhitespace)
      = some (r4 ++ e) := by
    rw [hWS.2]
    exact stripLitCI_append _ _ e r4 h3
  rcases h4 : stripLitCI "json".data r4 with _ | x
  · -- the optional `json` marker is absent; it stays absent after the
    -- extension because the capture split guarantees a backtick in `r4`
    rw [h4] at h
    rcases h5 : splitOnFirstL "```".data r4 with _ | ⟨content, rest⟩
    · simp only [h5] at h
      simp at h
    simp only [h5, Option.some.injEq] at h
    subst h
    have h4A : stripLitCI "json".data (r4 ++ e) = none := by
      rcases h4x : stripLitCI "json".data (r4 ++ e) with _ | y
      · rfl
      exfalso
      have hcov := stripLitCI_covers "json".data r4 e y h4 h4x
      have hbt : ('`' : Char) ∈ r4 := by
        simp only [splitOnFirstL, Option.map_eq_some'] at h5
        obtain ⟨i, hi, _⟩ := h5
        exact StrUtil.mem_of_findSubL_cons '`' ['`', '`'] r4 i hi
      obtain ⟨a, ha, hae⟩ := hcov '`' hbt
      have hno : ∀ a ∈ "json".data, charCIEq a '`' = false := by decide
      rw [hno a ha] at hae
      exact Bool.false_ne_true hae
    have h5A : splitOnFirstL "```".data (r4 ++ e) = some (content, rest ++ e) :=
      splitOnFirstL_append _ r4 e content rest h5
    simp only [tryToolAt, hs1A, hTW.1, if_neg hname, hdA, if_pos hc, h3A, h4A, h5A]
  · rw [h4] at h
    rcases h5 : splitOnFirstL "```".data x with _ | ⟨content, rest⟩
    · simp only [h5] at h
      simp at h
    simp only [h5, Option.some.injEq] at h
    subst h
    have h4A : stripLitCI "json".data (r4 ++ e) = some (x ++ e) :=
      stripLitCI_append _ _ e x h4
    have h5A : splitOnFirstL "```".data (x ++ e) = some (content, rest ++ e) :=
      splitOnFirstL_append _ x e content rest h5
    simp only [tryToolAt, hs1A, hTW.1, if_neg hname, hdA, if_pos hc, h3A, h4A, h5A]

/-- The main pattern cannot match at a position that does not start with
`[`. -/
theorem tryToolAt_cons_none (c : Char) (l : List Char) (hc : ¬ c = '[') :
    tryToolAt (c :: l) = none := by
  have h1 : stripLitCI "[TOOL:".data (c :: l) = none := by
    have hd : "[TOOL:".data = '[' :: "TOOL:".data := by decide
    rw [hd]
    simp [stripLitCI, charCIEq_lbrack_eq_false c hc]
  simp [tryToolAt, h1]

/-- Neither can the fallback detector pattern. -/
theorem tryDetectAt_cons_none (c : Char) (l : List Char) (hc : ¬ c = '[') :
    tryDetectAt (c :: l) = none := by
  have h1 : stripLitCI "[TOOL:".data (c :: l) = none := by
    have hd : "[TOOL:".data = '[' :: "TOOL:".data := by decide
    rw [hd]
    simp [stripLitCI, charCIEq_lbrack_eq_false c hc]
  simp [tryDetectAt, h1]

/-- `re.search` takes the match at the current head when the anchored
pattern succeeds there. -/
theorem scanFor_cons_some (tryF : List Char → Option RMatch) (c : Char)
    (t : List Char) (m : RMatch) (h : tryF (c :: t) = some m) :
    scanFor tryF (c :: t) = some m := by
  simp [scanFor, h]

/-- Scanning skips over a prefix free of `[` for a pattern that can only
match at a `[`. -/
theorem scanFor_append_left (tryF : List Char → Option RMatch)
    (hhead : ∀ (c : Char) (l : List Char), ¬ c = '[' → tryF (c :: l) = none) :
    ∀ (x y : List Char), '[' ∉ x → scanFor tryF (x ++ y) = scanFor tryF y
  | [], _, _ => rfl
  | c :: t, y, hx => by
    have hc : ¬ c = '[' := fun he => hx (he ▸ List.mem_cons_self _ _)
    have hg : (c :: t) ++ y = c :: (t ++ y) := rfl
    rw [hg]
    simp only [scanFor, hhead c (t ++ y) hc]
    exact scanFor_append_left tryF hhead t y (fun hm => hx (List.mem_cons_of_mem _ hm))

end IdeServer
namespace IdeServer

/-- While no `[` has been seen, every chunk is forwarded verbatim and
appended to both the accumulated response and the display buffer. -/
theorem runStream_noLB :
    ∀ (pre : List (List Char)) (st : StreamSt) (rest : List (List Char)),
      (∀ ch ∈ pre, ('[' : Char) ∉ ch) → st.inToolBlock = false →
      ('[' : Char) ∉ st.currentResponse →
      runStream st (pre ++ rest)
        = runStream ⟨st.currentResponse ++ pre.flatten, st.displayBuffer ++ pre.flatten,
            st.toolBlockBuffer, st.inToolBlock, st.forwarded ++ pre, st.detected⟩ rest
  | [], st, rest, _, _, _ => by simp
  | ch :: pre, st, rest, hpre, hitb, hcr => by
    have hch : ('[' : Char) ∉ ch := hpre ch (List.mem_cons_self _ _)
    have hcr2 : ('[' : Char) ∉ st.currentResponse ++ ch := by
      intro hm
      rcases List.mem_append.mp hm with hm | hm
      · exact hcr hm
      · exact hch hm
    have hsent : "[TOOL:".data = '[' :: "TOOL:".data := by decide
    have hnofind : StrUtil.containsSubL (st.currentResponse ++ ch) "[TOOL:".data = false := by
      unfold StrUtil.containsSubL
      rw [hsent, StrUtil.findSubL_none_of_head_notin '[' "TOOL:".data _ hcr2]
      rfl
    have hstep : streamStep st ch
        = (⟨st.currentResponse ++ ch, st.displayBuffer ++ ch, st.toolBlockBuffer,
            st.inToolBlock, st.forwarded ++ [ch], st.detected⟩, false) := by
      unfold streamStep
      simp [hitb, hnofind]
    have hrec := runStream_noLB pre
        ⟨st.currentResponse ++ ch, st.displayBuffer ++ ch, st.toolBlockBuffer,
          st.inToolBlock, st.forwarded ++ [ch], st.detected⟩
        rest (fun c hc => hpre c (List.mem_cons_of_mem _ hc)) hitb hcr2
    have hg : (ch :: pre) ++ rest = ch :: (pre ++ rest) := rfl
    rw [hg]
    simp only [runStream, hstep]
    rw [hrec]
    simp [List.append_assoc]

end IdeServer

namespace IdeServer

/-- The chunk that completes the first `[TOOL:` sentinel switches the
interceptor into tool-block mode: the prose before the sentinel becomes
the display buffer, the new prose beyond the already-displayed prefix is
forwarded exactly when it is non-empty, non-whitespace and not already
displayed, and the tool-block buffer restarts at the sentinel. -/
theorem streamStep_sentinel (pf t body : List Char) (fw : List (List Char))
    (hx : ('[' : Char) ∉ pf ++ t)
    (hws : t ≠ [] → StrUtil.hasNonWs (pf ++ t) = true)
    (hfw : fw.flatten = pf) :
    ∃ f, streamStep ⟨pf, pf, [], false, fw, none⟩ (t ++ ("[TOOL:".data ++ body))
        = (⟨(pf ++ t) ++ ("[TOOL:".data ++ body), pf ++ t, "[TOOL:".data ++ body,
            true, f, none⟩, false)
      ∧ f.flatten = pf ++ t := by
  have hsent : "[TOOL:".data = '[' :: "TOOL:".data := by decide
  have hfind0 : StrUtil.findSubL "[TOOL:".data ((pf ++ t) ++ ("[TOOL:".data ++ body))
      = some (pf ++ t).length := by
    rw [hsent]
    exact StrUtil.findSubL_after_clean '[' "TOOL:".data (pf ++ t) body hx
  have hcr : pf ++ (t ++ ("[TOOL:".data ++ body))
      = (pf ++ t) ++ ("[TOOL:".data ++ body) := by simp [List.append_assoc]
  have hcontains : StrUtil.containsSubL (pf ++ (t ++ ("[TOOL:".data ++ body)))
      "[TOOL:".data = true := by
    unfold StrUtil.containsSubL
    rw [hcr, hfind0]
    rfl
  have hgetD : (StrUtil.findSubL "[TOOL:".data
      (pf ++ (t ++ ("[TOOL:".data ++ body)))).getD 0 = pf.length + t.length := by
    rw [hcr, hfind0, Option.getD_some, List.length_append]
  have htake : (pf ++ (t ++ ("[TOOL:".data ++ body))).take (pf.length + t.length)
      = pf ++ t := by
    rw [hcr, ← List.length_append pf t]
    exact List.take_left _ _
  have hlen6 : ("[TOOL:".data).length = 6 := by decide
  have hdrop : (pf ++ (t ++ ("[TOOL:".data ++ body))).drop (pf.length + t.length + 6)
      = body := by
    rw [hcr]
    have h1 : (pf ++ t) ++ ("[TOOL:".data ++ body)
        = ((pf ++ t) ++ "[TOOL:".data) ++ body := by simp [List.append_assoc]
    have h2 : ((pf ++ t) ++ "[TOOL:".data).length = pf.length + t.length + 6 := by
      rw [List.length_append, hlen6, List.length_append]
    rw [h1, ← h2]
    exact List.drop_left _ _
  have hstepGen : streamStep ⟨pf, pf, [], false, fw, none⟩ (t ++ ("[TOOL:".data ++ body))
      = (⟨(pf ++ t) ++ ("[TOOL:".data ++ body), pf ++ t, "[TOOL:".data ++ body, true,
          (if (pf ++ t) ≠ [] ∧ StrUtil.hasNonWs (pf ++ t)
              ∧ ¬ StrUtil.containsSubL pf (pf ++ t)
           then (if t ≠ [] then fw ++ [t] else fw) else fw), none⟩, false) := by
    unfold streamStep
    dsimp only
    rw [if_pos hcontains, hgetD, htake, hdrop, List.drop_left, hcr,
      if_neg (show ¬ ((false : Bool) = true) from by decide)]
  refine ⟨_, hstepGen, ?_⟩
  by_cases ht0 : t = []
  · subst ht0
    simp [hfw]
  · have hg : (pf ++ t) ≠ [] ∧ StrUtil.hasNonWs (pf ++ t)
        ∧ ¬ StrUtil.containsSubL pf (pf ++ t) := by
      refine ⟨?_, hws ht0, ?_⟩
      · intro hnil
        exact ht0 (List.append_eq_nil.mp hnil).2
      · intro hcon
        have hle := StrUtil.containsSubL_length_le pf (pf ++ t) hcon
        rw [List.length_append] at hle
        have : t.length = 0 := by omega
        exact ht0 (List.length_eq_zero.mp this)
    rw [if_pos hg, if_pos ht0]
    simp [hfw]

end IdeServer
namespace IdeServer

/-- Once the buffered tool block holds a parseable call, the next chunk
triggers the in-stream parse: the tool is detected, nothing further is
forwarded, and the token loop breaks. -/
theorem streamStep_break (cr pf body r : List Char) (fw : List (List Char))
    (m : RMatch)
    (htry : tryToolAt ("[TOOL:".data ++ body) = some m)
    (hjson : jsonOkL (StrUtil.stripWs m.content) = true)
    (hfence : 2 ≤ StrUtil.countSubL "```".data ("[TOOL:".data ++ body)) :
    streamStep ⟨cr, pf, "[TOOL:".data ++ body, true, fw, none⟩ r
      = (⟨cr ++ r, pf, ("[TOOL:".data ++ body) ++ r, true, fw,
          some (m.name, StrUtil.stripWs m.content)⟩, true) := by
  have hfence2 : 2 ≤ StrUtil.countSubL "```".data (("[TOOL:".data ++ body) ++ r) :=
    le_trans hfence (StrUtil.countSubL_le_append _ _ r)
  have hm' := tryToolAt_append ("[TOOL:".data ++ body) r m htry
  have hshape : ("[TOOL:".data ++ body) ++ r = '[' :: (("TOOL:".data ++ body) ++ r) := rfl
  have hscan : scanFor tryToolAt (("[TOOL:".data ++ body) ++ r)
      = some ⟨m.name, m.content, m.rest ++ r⟩ := by
    rw [hshape] at hm' ⊢
    exact scanFor_cons_some _ _ _ _ hm'
  have hparse : parseToolBlockM (("[TOOL:".data ++ body) ++ r)
      = some (m.name, StrUtil.stripWs m.content) := by
    unfold parseToolBlockM
    rw [hscan]
    dsimp only
    rw [hjson, if_pos rfl]
  unfold streamStep
  dsimp only
  rw [if_pos (show (true : Bool) = true from rfl), if_pos hfence2, hparse]

/-- `_detect_tool_calls` finds the block as its first hit when the
response is a `[`-free prefix followed by the block. -/
theorem detectToolCallsM_head (x body : List Char) (m : RMatch)
    (hx : ('[' : Char) ∉ x)
    (hdet : tryDetectAt ("[TOOL:".data ++ body) = some m)
    (hjson : jsonOkL (StrUtil.stripWs m.content) = true) :
    (detectToolCallsM (x ++ ("[TOOL:".data ++ body))).head?
      = some (m.name, StrUtil.stripWs m.content) := by
  have hscan : scanFor tryDetectAt (x ++ ("[TOOL:".data ++ body)) = some m := by
    rw [scanFor_append_left tryDetectAt tryDetectAt_cons_none x _ hx]
    have hshape : "[TOOL:".data ++ body = '[' :: ("TOOL:".data ++ body) := rfl
    rw [hshape] at hdet ⊢
    exact scanFor_cons_some _ _ _ _ hdet
  unfold detectToolCallsM
  simp only [findallFor, hscan, List.filterMap_cons]
  simp [hjson]

end IdeServer
/-- C5, counterexample: the spec says no prose byte at or after the
first `[TOOL:` sentinel of a successfully parsed block is forwarded and
all bytes strictly before it are forwarded.  Both directions fail for
some chunkings: in `c5chunksA` the sentinel is split across two chunks,
so the first chunk — whose tail lies at and after the sentinel — is
forwarded verbatim; in `c5chunksB` the whitespace-only prose before the
sentinel is silently dropped by the `before_tool.strip()` guard. -/
theorem c5_counterexample :
    (IdeServer.runStreamFull IdeServer.c5chunksA).detected.isSome = true ∧
      (IdeServer.runStreamFull IdeServer.c5chunksA).forwarded.flatten
        ≠ IdeServer.prefixBeforeSentinel
            (IdeServer.runStreamFull IdeServer.c5chunksA).currentResponse ∧
      (IdeServer.runStreamFull IdeServer.c5chunksA).forwarded.flatten = "A[TOO".data ∧
      IdeServer.prefixBeforeSentinel
          (IdeServer.runStreamFull IdeServer.c5chunksA).currentResponse = "A".data ∧
      (IdeServer.runStreamFull IdeServer.c5chunksB).detected.isSome = true ∧
      (IdeServer.runStreamFull IdeServer.c5chunksB).forwarded.flatten = [] ∧
      IdeServer.prefixBeforeSentinel
          (IdeServer.runStreamFull IdeServer.c5chunksB).currentResponse = " ".data := by
  decide

/-- C5, amended: when the chunking is benign — every chunk before the
block chunk is free of `[`, the block chunk consists of prose `t` (also
`[`-free) followed by the complete `[TOOL:` block, the pre-sentinel
prose contains a non-whitespace character when non-empty, and the block
matches both tool-block patterns with JSON-valid content and at least
two fences — the interceptor forwards exactly the bytes strictly before
the sentinel (in order) and detects the tool call, whether the parse
fires in-stream (further chunks arrive) or via the post-loop
`_detect_tool_calls` fallback (stream ends at the block). -/
theorem c5_amended
    (pre : List (List Char)) (t body : List Char) (rest : List (List Char))
    (m : IdeServer.RMatch)
    (hpre : ∀ ch ∈ pre, ('[' : Char) ∉ ch)
    (ht : ('[' : Char) ∉ t)
    (hws : t ≠ [] → StrUtil.hasNonWs (pre.flatten ++ t) = true)
    (htry : IdeServer.tryToolAt ("[TOOL:".data ++ body) = some m)
    (hdet : IdeServer.tryDetectAt ("[TOOL:".data ++ body) = some m)
    (hjson : IdeServer.jsonOkL (StrUtil.stripWs m.content) = true)
    (hfence : 2 ≤ StrUtil.countSubL "```".data ("[TOOL:".data ++ body)) :
    (IdeServer.runStreamFull (pre ++ (t ++ ("[TOOL:".data ++ body)) :: rest)).forwarded.flatten
        = pre.flatten ++ t ∧
      (IdeServer.runStreamFull (pre ++ (t ++ ("[TOOL:".data ++ body)) :: rest)).detected
        = some (m.name, StrUtil.stripWs m.content) ∧
      IdeServer.prefixBeforeSentinel
          ((pre.flatten ++ t) ++ ("[TOOL:".data ++ (body ++ rest.flatten)))
        = pre.flatten ++ t := by
  have hsent : "[TOOL:".data = '[' :: "TOOL:".data := by decide
  have hx : ('[' : Char) ∉ pre.flatten ++ t := by
    intro hm
    rcases List.mem_append.mp hm with hm | hm
    · obtain ⟨l, hl, hml⟩ := List.mem_flatten.mp hm
      exact hpre l hl hml
    · exact ht hm
  have hpbs : IdeServer.prefixBeforeSentinel
      ((pre.flatten ++ t) ++ ("[TOOL:".data ++ (body ++ rest.flatten)))
      = pre.flatten ++ t := by
    unfold IdeServer.prefixBeforeSentinel
    rw [hsent,
      StrUtil.findSubL_after_clean '[' "TOOL:".data (pre.flatten ++ t) (body ++ rest.flatten) hx,
      Option.getD_some]
    exact List.take_left _ _
  have hA := IdeServer.runStream_noLB pre ⟨[], [], [], false, [], none⟩
      ((t ++ ("[TOOL:".data ++ body)) :: rest) hpre rfl (by simp)
  simp only [List.nil_append] at hA
  obtain ⟨f, hstep1, hflat⟩ :=
    IdeServer.streamStep_sentinel pre.flatten t body pre hx hws rfl
  have hB : IdeServer.runStream ⟨pre.flatten, pre.flatten, [], false, pre, none⟩
      ((t ++ ("[TOOL:".data ++ body)) :: rest)
      = IdeServer.runStream ⟨(pre.flatten ++ t) ++ ("[TOOL:".data ++ body), pre.flatten ++ t,
          "[TOOL:".data ++ body, true, f, none⟩ rest := by
    simp only [IdeServer.runStream, hstep1]
    rfl
  have hRun := hA.trans hB
  cases rest with
  | nil =>
    have hdetect := IdeServer.detectToolCallsM_head (pre.flatten ++ t) body m hx hdet hjson
    have hfull : IdeServer.runStreamFull
        (pre ++ (t ++ ("[TOOL:".data ++ body)) :: ([] : List (List Char)))
        = ⟨(pre.flatten ++ t) ++ ("[TOOL:".data ++ body), pre.flatten ++ t,
            "[TOOL:".data ++ body, true, f, some (m.name, StrUtil.stripWs m.content)⟩ := by
      unfold IdeServer.runStreamFull
      rw [hRun]
      dsimp only [IdeServer.runStream]
      rw [hdetect]
    rw [hfull]
    exact ⟨hflat, rfl, hpbs⟩
  | cons r rs =>
    have hstep2 := IdeServer.streamStep_break
        ((pre.flatten ++ t) ++ ("[TOOL:".data ++ body)) (pre.flatten ++ t) body r f m
        htry hjson hfence
    have hC : IdeServer.runStream ⟨(pre.flatten ++ t) ++ ("[TOOL:".data ++ body),
        pre.flatten ++ t, "[TOOL:".data ++ body, true, f, none⟩ (r :: rs)
        = ⟨((pre.flatten ++ t) ++ ("[TOOL:".data ++ body)) ++ r, pre.flatten ++ t,
            ("[TOOL:".data ++ body) ++ r, true, f,
            some (m.name, StrUtil.stripWs m.content)⟩ := by
      simp only [IdeServer.runStream, hstep2]
      rfl
    have hfull : IdeServer.runStreamFull
        (pre ++ (t ++ ("[TOOL:".data ++ body)) :: r :: rs)
        = ⟨((pre.flatten ++ t) ++ ("[TOOL:".data ++ body)) ++ r, pre.flatten ++ t,
            ("[TOOL:".data ++ body) ++ r, true, f,
            some (m.name, StrUtil.stripWs m.content)⟩ := by
      unfold IdeServer.runStreamFull
      rw [hRun, hC]
    rw [hfull]
    exact ⟨hflat, rfl, hpbs⟩
/-- C5 witness: the benign chunking of the spec's scenario — prose
chunks, then a chunk holding the complete `[TOOL:read_file]` block,
then a trailing chunk — forwards exactly the pre-sentinel prose and
detects the call. -/
theorem c5_amended_witness :
    (IdeServer.runStreamFull (["I will read ".data]
        ++ ("that. ".data ++ ("[TOOL:".data
              ++ "read_file]\n```json\n\x7b\"file_path\":\"x.py\"\x7d\n```".data))
          :: [" ignored".data])).forwarded.flatten
        = "I will read that. ".data ∧
      (IdeServer.runStreamFull (["I will read ".data]
          ++ ("that. ".data ++ ("[TOOL:".data
                ++ "read_file]\n```json\n\x7b\"file_path\":\"x.py\"\x7d\n```".data))
            :: [" ignored".data])).detected
        = some ("read_file".data, "\x7b\"file_path\":\"x.py\"\x7d".data) ∧
      IdeServer.prefixBeforeSentinel
          ("I will read that. ".data ++ ("[TOOL:".data
              ++ ("read_file]\n```json\n\x7b\"file_path\":\"x.py\"\x7d\n```".data
                  ++ " ignored".data)))
        = "I will read that. ".data := by
  exact c5_amended ["I will read ".data] "that. ".data
    "read_file]\n```json\n\x7b\"file_path\":\"x.py\"\x7d\n```".data [" ignored".data]
    ⟨"read_file".data, "\n\x7b\"file_path\":\"x.py\"\x7d\n".data, []⟩
    (by decide) (by decide) (by decide) (by decide) (by decide) (by decide) (by decide)
